import Mathlib

/-!
Verification development for the legal-ka-render retrieval core.

The Python modules `src/chunking.py` and `src/retrieve.py` are shallowly
embedded below.  Text is modelled as `List Char` (Python strings are
sequences of code points), floating-point scores as `ℚ`, and the external
collaborators (vector index, lexical index, metadata store) as oracle
functions carried in a retriever state.  Code that can raise an uncaught
exception is modelled with `Option`.
-/

set_option maxHeartbeats 1000000
set_option maxRecDepth 2000

namespace LegalKA

abbrev Str := List Char

def strL (s : String) : Str := s.data

/-- Lower-casing covering ASCII plus the Spanish letters the code deals with
(models Python `str.lower` on the relevant alphabet). -/
def lowerEs (c : Char) : Char :=
  if 'A' ≤ c ∧ c ≤ 'Z' then Char.ofNat (c.toNat + 32)
  else if c = 'Á' then 'á' else if c = 'É' then 'é'
  else if c = 'Í' then 'í' else if c = 'Ó' then 'ó'
  else if c = 'Ú' then 'ú' else if c = 'Ñ' then 'ñ'
  else if c = 'Ü' then 'ü' else c

def lowerStr (s : Str) : Str := s.map lowerEs

/-- Python regex `\s` / `str.strip` whitespace. -/
def isSpC (c : Char) : Bool :=
  c = ' ' || c = '\t' || c = '\n' || c = '\r' || c = '\x0b' || c = '\x0c'

def isDg (c : Char) : Bool := '0' ≤ c && c ≤ '9'

def spanishLetter (c : Char) : Bool :=
  c = 'á' || c = 'é' || c = 'í' || c = 'ó' || c = 'ú' || c = 'ñ' || c = 'ü' ||
  c = 'Á' || c = 'É' || c = 'Í' || c = 'Ó' || c = 'Ú' || c = 'Ñ' || c = 'Ü' ||
  c = 'º' || c = '°'

/-- Python regex `\w` on the alphabet in play. -/
def isWordC (c : Char) : Bool := c.isAlphanum || c = '_' || spanishLetter c

/-- Python `str.isalnum` on the alphabet in play. -/
def pyAlnum (c : Char) : Bool := c.isAlphanum || spanishLetter c

/-- Character of `cs` at index `i` (NUL when out of range; NUL never occurs in
the texts being modelled, so all literal checks fail past the end exactly as a
bounded regex engine would). -/
def chAt (cs : Str) (i : Nat) : Char := cs.getD i (Char.ofNat 0)

/-- First index `≥ i` holding a non-whitespace character (maximal munch of
`\s*`).  Structural recursion on fuel so that terms reduce definitionally;
the wrapper supplies enough fuel for the whole text. -/
def skipSpF : Nat → Str → Nat → Nat
  | 0, _, i => i
  | fuel + 1, cs, i =>
    if i < cs.length ∧ isSpC (chAt cs i) then skipSpF fuel cs (i + 1) else i

def skipSp (cs : Str) (i : Nat) : Nat := skipSpF (cs.length + 1) cs i

/-- Length of the run of decimal digits starting at `i`. -/
def digitRunF : Nat → Str → Nat → Nat
  | 0, _, _ => 0
  | fuel + 1, cs, i =>
    if i < cs.length ∧ isDg (chAt cs i) then digitRunF fuel cs (i + 1) + 1
    else 0

def digitRun (cs : Str) (i : Nat) : Nat := digitRunF (cs.length + 1) cs i

/-- Python slice `cs[i:j]`. -/
def sliceFT (cs : Str) (i j : Nat) : Str := (cs.drop i).take (j - i)

/-- Case-insensitive literal match of `pat` at position `i` (pattern given in
lower case). -/
def litAtI : Str → Nat → Str → Bool
  | _, _, [] => true
  | cs, i, c :: rest => (lowerEs (chAt cs i) == c) && litAtI cs (i + 1) rest

/-- Case-sensitive literal match of `pat` at position `i`. -/
def litAt : Str → Nat → Str → Bool
  | _, _, [] => true
  | cs, i, c :: rest => (chAt cs i == c) && litAt cs (i + 1) rest

/-- Python `needle in hay` (substring containment). -/
def containsSub (needle hay : Str) : Bool :=
  (List.range (hay.length + 1)).any (fun i => litAt hay i needle)

/-- Python `str.strip()`. -/
def stripChars (s : Str) : Str :=
  ((s.dropWhile isSpC).reverse.dropWhile isSpC).reverse

def digitChar : Nat → Char
  | 0 => '0' | 1 => '1' | 2 => '2' | 3 => '3' | 4 => '4'
  | 5 => '5' | 6 => '6' | 7 => '7' | 8 => '8' | _ => '9'

def digitVal (c : Char) : Nat := c.toNat - 48

/-- Decimal representation of a natural number (Python `str(n)` for `n ≥ 0`). -/
def natToCharsF : Nat → Nat → Str
  | 0, _ => []
  | fuel + 1, n =>
    if n < 10 then [digitChar n]
    else natToCharsF fuel (n / 10) ++ [digitChar (n % 10)]

def natToChars (n : Nat) : Str := natToCharsF (n + 1) n

/-- Decimal decoding (Python `int(s)` on digit strings). -/
def decChars (s : Str) : Nat := s.foldl (fun a c => a * 10 + digitVal c) 0

/-- Python `f-string` `{n:04d}`: zero-pad to width at least 4. -/
def pad4 (n : Nat) : Str :=
  List.replicate (4 - (natToChars n).length) '0' ++ natToChars n

def firstSome {α β : Type} (f : α → Option β) : List α → Option β
  | [] => none
  | a :: t => match f a with | some b => some b | none => firstSome f t

/-! ## Embedding of `src/chunking.py` -/

/-- The separator glyphs `[—\-–]` shared by the header regexes. -/
def dashes : Str := ['—', '-', '–']

/-- Alternative `[íi]culo` continuation of the keyword `art`. -/
def iculoAt (cs : Str) (j : Nat) : Bool :=
  (lowerEs (chAt cs j) == 'í' || lowerEs (chAt cs j) == 'i') &&
    litAtI cs (j + 1) (strL "culo")

/-- Candidate end positions of the keyword group
`(art(?:[íi]culo)?|art\.)`, in the order a backtracking engine tries
them: `art` plus `[íi]culo`, bare `art`, then `art.`. -/
def kwEnds (cs : Str) (j : Nat) : List Nat :=
  if litAtI cs j (strL "art") then
    (if iculoAt cs (j + 3) then [j + 8] else []) ++ [j + 3] ++
      (if chAt cs (j + 3) == '.' then [j + 4] else [])
  else []

/-- A match of the article-header regex `_ARTICLE_RE`: everything after the
keyword.  `aEnd` is the end of the whole match, `num` the captured numeral,
`sepPos` the position of the separator glyph that closed the header. -/
structure AMatch where
  aEnd : Nat
  num : Str
  sepPos : Nat
deriving DecidableEq, Repr

/-- Position of the numeral after the keyword: consumes
`\s* (?:n[º°o]\s*)? (?:\n\s*)?` (the optional newline group is subsumed by
maximal whitespace munching). -/
def artNumStart (cs : Str) (e : Nat) : Nat :=
  let e1 := skipSp cs e
  if lowerEs (chAt cs e1) == 'n' &&
      (chAt cs (e1 + 1) == 'º' || chAt cs (e1 + 1) == '°' ||
        lowerEs (chAt cs (e1 + 1)) == 'o')
  then skipSp cs (e1 + 2) else e1

/-- Position of the separator after the optional ordinal glyph:
`(?:\s*[º°])? \s*` starting right after the numeral. -/
def sepE5 (cs : Str) (e3 : Nat) : Nat :=
  let s := skipSp cs e3
  skipSp cs (if chAt cs s == 'º' || chAt cs s == '°' then s + 1 else e3)

/-- The tail `(?:\s*[º°])? \s* (?:\.\s*[—\-–]|[—\-–]|\.)` of `_ARTICLE_RE`
starting right after the numeral; returns (match end, separator position). -/
def sepScan (cs : Str) (e3 : Nat) : Option (Nat × Nat) :=
  if chAt cs (sepE5 cs e3) == '.' then
    if dashes.contains (chAt cs (skipSp cs (sepE5 cs e3 + 1))) then
      some (skipSp cs (sepE5 cs e3 + 1) + 1, skipSp cs (sepE5 cs e3 + 1))
    else some (sepE5 cs e3 + 1, sepE5 cs e3)
  else if dashes.contains (chAt cs (sepE5 cs e3)) then
    some (sepE5 cs e3 + 1, sepE5 cs e3)
  else none

/-- Continuation of `_ARTICLE_RE` after the keyword:
`\s* (?:n[º°o]\s*)? (?:\n\s*)? (\d{1,4}) (?:\s*[º°])? \s*
(?:\.\s*[—\-–]|[—\-–]|\.)`. -/
def artCont (cs : Str) (e : Nat) : Option AMatch :=
  if digitRun cs (artNumStart cs e) = 0 ∨ 4 < digitRun cs (artNumStart cs e)
  then none
  else
    match sepScan cs (artNumStart cs e + digitRun cs (artNumStart cs e)) with
    | some pr =>
      some ⟨pr.1, sliceFT cs (artNumStart cs e)
        (artNumStart cs e + digitRun cs (artNumStart cs e)), pr.2⟩
    | none => none

/-- Attempt of `_ARTICLE_RE` at position `i` (the `^` anchor is checked by the
scanner); `^\s*` then the keyword alternation then `artCont`. -/
def matchArtAt (cs : Str) (i : Nat) : Option AMatch :=
  firstSome (fun e => artCont cs e) (kwEnds cs (skipSp cs i))

/-- `_ARTICLE_RE.finditer`: leftmost, non-overlapping matches anchored at line
starts (`re.MULTILINE`).  Returns (start, match) pairs. -/
def artScanF : Nat → Str → Nat → List (Nat × AMatch)
  | 0, _, _ => []
  | fuel + 1, cs, i =>
    if i < cs.length then
      if i = 0 || chAt cs (i - 1) == '\n' then
        match matchArtAt cs i with
        | some m =>
          if i < m.aEnd then (i, m) :: artScanF fuel cs m.aEnd
          else artScanF fuel cs (i + 1)
        | none => artScanF fuel cs (i + 1)
      else artScanF fuel cs (i + 1)
    else []

def artFinditer (cs : Str) : List (Nat × AMatch) :=
  artScanF (cs.length + 1) cs 0

/-- A match of the glue regex `_HEADER_GLUE_RE`; `kw` and `num` are the two
capture groups, `gEnd` the end of the whole match. -/
structure GMatch where
  gEnd : Nat
  kw : Str
  num : Str
deriving DecidableEq, Repr

/-- The separator tail `\s*(?:[º°])? \s*(?:\.\s*[—\-–]|[—\-–]\s*)` of
`_HEADER_GLUE_RE` (no bare-period alternative; the dash branch swallows
trailing whitespace); returns the match end. -/
def glueSepEnd (cs : Str) (e3 : Nat) : Option Nat :=
  if chAt cs (sepE5 cs e3) == '.' then
    if dashes.contains (chAt cs (skipSp cs (sepE5 cs e3 + 1))) then
      some (skipSp cs (sepE5 cs e3 + 1) + 1)
    else none
  else if dashes.contains (chAt cs (sepE5 cs e3)) then
    some (skipSp cs (sepE5 cs e3 + 1))
  else none

/-- Continuation of `_HEADER_GLUE_RE` after the keyword:
`\s* (?:n[º°o]\s*)? (\d{1,4}) \s*(?:[º°])? \s*(?:\.\s*[—\-–]|[—\-–]\s*)`.
Returns the end position and the numeral. -/
def glueCont (cs : Str) (e : Nat) : Option (Nat × Str) :=
  if digitRun cs (artNumStart cs e) = 0 ∨ 4 < digitRun cs (artNumStart cs e)
  then none
  else
    match glueSepEnd cs (artNumStart cs e + digitRun cs (artNumStart cs e)) with
    | some endp =>
      some (endp, sliceFT cs (artNumStart cs e)
        (artNumStart cs e + digitRun cs (artNumStart cs e)))
    | none => none

/-- Attempt of `_HEADER_GLUE_RE` at position `i`:
`(?<!\n) (?:\s+) (ART(?:[ÍI]CULO)?|ART\.) …` (the regex is compiled with
`(?i)`). -/
def matchGlueAt (cs : Str) (i : Nat) : Option GMatch :=
  if i ≠ 0 && chAt cs (i - 1) == '\n' then none
  else
    let j := skipSp cs i
    if j ≤ i then none
    else
      firstSome
        (fun e => (glueCont cs e).map (fun p => ⟨p.1, sliceFT cs j e, p.2⟩))
        (kwEnds cs j)

/-- `_HEADER_GLUE_RE.sub(r"\n\1 \2. —", ·)`: scan left to right, replacing
non-overlapping matches. -/
def glueSubF : Nat → Str → Nat → Str
  | 0, _, _ => []
  | fuel + 1, cs, i =>
    if i < cs.length then
      match matchGlueAt cs i with
      | some m =>
        if i < m.gEnd then
          '\n' :: (m.kw ++ ' ' :: (m.num ++ ['.', ' ', '—'])) ++
            glueSubF fuel cs m.gEnd
        else chAt cs i :: glueSubF fuel cs (i + 1)
      | none => chAt cs i :: glueSubF fuel cs (i + 1)
    else []

def glueSub (cs : Str) (i : Nat) : Str := glueSubF (cs.length + 1) cs i

/-- `normalize_legal_text`: NBSP to space, zero-width removed, glued headers
forced onto a new line. -/
def normalizeLegalText (s : Str) : Str :=
  glueSub ((s.map (fun c => if c = '\u00A0' then ' ' else c)).filter
    (fun c => c ≠ '\u200B')) 0

/-- The page marker `f"[PAGE {p}]\n"` prepended to each page. -/
def pageMark (p : Nat) : Str := strL "[PAGE " ++ natToChars p ++ [']', '\n']

def joinWith (sep : Str) : List Str → Str
  | [] => []
  | [x] => x
  | x :: y :: t => x ++ sep ++ joinWith sep (y :: t)

/-- Match of `\[PAGE (\d+)\]` at position `i`: end position and page number. -/
def markAt (cs : Str) (i : Nat) : Option (Nat × Nat) :=
  if litAt cs i (strL "[PAGE ") then
    let r := digitRun cs (i + 6)
    if r = 0 then none
    else if chAt cs (i + 6 + r) == ']' then
      some (i + 6 + r + 1, decChars (sliceFT cs (i + 6) (i + 6 + r)))
    else none
  else none

/-- `re.findall(r"\[PAGE (\d+)\]", ·)` (as numbers). -/
def pageNumScanF : Nat → Str → Nat → List Nat
  | 0, _, _ => []
  | fuel + 1, cs, i =>
    if i < cs.length then
      match markAt cs i with
      | some p =>
        if i < p.1 then p.2 :: pageNumScanF fuel cs p.1
        else pageNumScanF fuel cs (i + 1)
      | none => pageNumScanF fuel cs (i + 1)
    else []

def pageNumScan (cs : Str) (i : Nat) : List Nat :=
  pageNumScanF (cs.length + 1) cs i

/-- `re.sub(r"\[PAGE \d+\]\n?", "", ·)`. -/
def remMarksF : Nat → Str → Nat → Str
  | 0, _, _ => []
  | fuel + 1, cs, i =>
    if i < cs.length then
      match markAt cs i with
      | some p =>
        if i < p.1 then
          remMarksF fuel cs (if chAt cs p.1 == '\n' then p.1 + 1 else p.1)
        else chAt cs i :: remMarksF fuel cs (i + 1)
      | none => chAt cs i :: remMarksF fuel cs (i + 1)
    else []

def remMarks (cs : Str) (i : Nat) : Str := remMarksF (cs.length + 1) cs i

def listMin : List Nat → Nat
  | [] => 0
  | x :: xs => xs.foldl Nat.min x

def listMax : List Nat → Nat
  | [] => 0
  | x :: xs => xs.foldl Nat.max x

/-- The `Chunk` dataclass. -/
structure Chunk where
  chunk_id : Str
  doc_id : Str
  page_start : Nat
  page_end : Nat
  text : Str
  article : Option Str := none
  sectionL : Option Str := none
deriving DecidableEq, Repr

def amDflt : Nat × AMatch := (0, ⟨0, [], 0⟩)

/-- One Mode-A (article-bounded) chunk: span from one header match to the
next (or end of buffer). -/
def modeAChunk (doc : Str) (normPages : List (Nat × Str)) (full : Str)
    (ms : List (Nat × AMatch)) (idx : Nat) : Chunk :=
  let start := (ms.getD idx amDflt).1
  let stop := if idx + 1 < ms.length then (ms.getD (idx + 1) amDflt).1
              else full.length
  let block := sliceFT full start stop
  let pns := pageNumScan block 0
  let p1 := if pns = [] then (normPages.headD (0, [])).1 else listMin pns
  let p2 := if pns = [] then (normPages.getLastD (0, [])).1 else listMax pns
  let art := (ms.getD idx amDflt).2.num
  { chunk_id := doc ++ strL "__art_" ++ art ++ strL "__" ++ pad4 idx,
    doc_id := doc, page_start := p1, page_end := p2,
    text := stripChars (remMarks block 0),
    article := some art, sectionL := none }

/-- Roman-numeral/digit class `[ivxlcdm0-9]` of `_SECTION_RE` (case folded). -/
def isRomanC (c : Char) : Bool :=
  let l := lowerEs c
  l = 'i' || l = 'v' || l = 'x' || l = 'l' || l = 'c' || l = 'd' || l = 'm' ||
    isDg c

def romanRunF : Nat → Str → Nat → Nat
  | 0, _, _ => 0
  | fuel + 1, cs, i =>
    if i < cs.length ∧ isRomanC (chAt cs i) then romanRunF fuel cs (i + 1) + 1
    else 0

def romanRun (cs : Str) (i : Nat) : Nat := romanRunF (cs.length + 1) cs i

/-- Position of the end of the current line (`.*$` with `re.MULTILINE`). -/
def lineEndFromF : Nat → Str → Nat → Nat
  | 0, cs, _ => cs.length
  | fuel + 1, cs, i =>
    if i < cs.length then
      if chAt cs i == '\n' then i else lineEndFromF fuel cs (i + 1)
    else cs.length

def lineEndFrom (cs : Str) (i : Nat) : Nat := lineEndFromF (cs.length + 1) cs i

/-- Keyword alternation `(t[íi]tulo|cap[íi]tulo|secci[óo]n)` of
`_SECTION_RE`; returns the end of the keyword. -/
def secKwEnd (cs : Str) (j : Nat) : Option Nat :=
  if lowerEs (chAt cs j) == 't' &&
      (lowerEs (chAt cs (j + 1)) == 'í' || lowerEs (chAt cs (j + 1)) == 'i') &&
      litAtI cs (j + 2) (strL "tulo") then some (j + 6)
  else if litAtI cs j (strL "cap") &&
      (lowerEs (chAt cs (j + 3)) == 'í' || lowerEs (chAt cs (j + 3)) == 'i') &&
      litAtI cs (j + 4) (strL "tulo") then some (j + 8)
  else if litAtI cs j (strL "secci") &&
      (lowerEs (chAt cs (j + 5)) == 'ó' || lowerEs (chAt cs (j + 5)) == 'o') &&
      lowerEs (chAt cs (j + 6)) == 'n' then some (j + 7)
  else none

/-- Attempt of `_SECTION_RE` at line-start `i`; returns the end of the whole
match (`group(0)` then runs from `i` to there). -/
def secMatchAt (cs : Str) (i : Nat) : Option Nat :=
  match secKwEnd cs (skipSp cs i) with
  | none => none
  | some e =>
    let k := skipSp cs e
    if k ≤ e then none
    else
      let r := romanRun cs k
      if r = 0 then none
      else if isWordC (chAt cs (k + r)) then none
      else some (lineEndFrom cs (k + r))

/-- `_SECTION_RE.search`: leftmost line-start match, returning `group(0)`. -/
def secSearchF : Nat → Str → Nat → Option Str
  | 0, _, _ => none
  | fuel + 1, cs, i =>
    if i < cs.length then
      if i = 0 || chAt cs (i - 1) == '\n' then
        match secMatchAt cs i with
        | some e => some (sliceFT cs i e)
        | none => secSearchF fuel cs (i + 1)
      else secSearchF fuel cs (i + 1)
    else none

def secSearch (cs : Str) (i : Nat) : Option Str :=
  secSearchF (cs.length + 1) cs i

/-- The Mode-B sliding-window loop of `chunk_pages_legal_aware`. -/
def modeBLoopF (doc : Str) (textAll : Str) (sec : Option Str)
    (p1 p2 chunkChars stepTokens : Nat) : Nat → Nat → Nat → List Chunk
  | 0, _, _ => []
  | fuel + 1, i, idx =>
    if i < textAll.length then
      if stripChars (sliceFT textAll i (i + chunkChars)) = [] then []
      else
        { chunk_id := doc ++ strL "__chunk__" ++ pad4 idx, doc_id := doc,
          page_start := p1, page_end := p2,
          text := stripChars (sliceFT textAll i (i + chunkChars)),
          article := none, sectionL := sec } ::
          modeBLoopF doc textAll sec p1 p2 chunkChars stepTokens fuel
            (i + max 50 (stepTokens * 4)) (idx + 1)
    else []

def modeBLoop (doc : Str) (textAll : Str) (sec : Option Str)
    (p1 p2 chunkChars stepTokens i idx : Nat) : List Chunk :=
  modeBLoopF doc textAll sec p1 p2 chunkChars stepTokens
    (textAll.length + 1) i idx

/-- The normalized page list of `chunk_pages_legal_aware`. -/
def normPagesOf (pages : List (Nat × Str)) : List (Nat × Str) :=
  pages.map (fun pt => (pt.1, normalizeLegalText pt.2))

/-- The concatenated buffer with page markers. -/
def fullOf (pages : List (Nat × Str)) : Str :=
  joinWith ['\n', '\n'] ((normPagesOf pages).map (fun pt => pageMark pt.1 ++ pt.2))

/-- The fallback concatenation without markers. -/
def textAllOf (pages : List (Nat × Str)) : Str :=
  stripChars (joinWith ['\n', '\n'] ((normPagesOf pages).map (·.2)))

/-- `chunk_pages_legal_aware`. -/
def chunkPagesLegalAware (doc : Str) (pages : List (Nat × Str))
    (chunkTokens overlapTokens : Nat) : List Chunk :=
  match pages with
  | [] => []
  | _ :: _ =>
    if artFinditer (fullOf pages) ≠ [] then
      (List.range (artFinditer (fullOf pages)).length).map
        (modeAChunk doc (normPagesOf pages) (fullOf pages)
          (artFinditer (fullOf pages)))
    else
      if textAllOf pages = [] then []
      else
        modeBLoop doc (textAllOf pages)
          ((secSearch (textAllOf pages) 0).map stripChars)
          ((normPagesOf pages).headD (0, [])).1
          ((normPagesOf pages).getLastD (0, [])).1
          (max 200 (chunkTokens * 4)) (max 1 (chunkTokens - overlapTokens)) 0 0

/-! ## Embedding of `src/retrieve.py` -/

/-- Metadata fields usable in equality filters. -/
inductive MField
  | artNro | numero | siglas | tipoNorma
deriving DecidableEq, Repr

/-- Chunk metadata as stored in the indexes (a missing key is the empty
string, matching `meta.get(k, "")`). -/
structure Meta where
  articuloNro : Str := []
  numero : Str := []
  siglas : Str := []
  tipoNorma : Str := []
  pageStart : Str := []
  pageEnd : Str := []
  sourceFile : Str := []
  documentoNombre : Str := []
  docIdM : Str := []
  normalizedFile : Str := []
deriving DecidableEq, Repr

def metaGet (m : Meta) : MField → Str
  | .artNro => m.articuloNro
  | .numero => m.numero
  | .siglas => m.siglas
  | .tipoNorma => m.tipoNorma

/-- An entry of the Chroma collection: id, document text, metadata. -/
structure CEntry where
  cid : Str
  doc : Str
  cmeta : Meta
deriving DecidableEq, Repr

/-- One row returned by a vector query: id, text, metadata, cosine distance. -/
structure VRes where
  vid : Str
  vdoc : Str
  vmeta : Meta
  vdist : ℚ
deriving DecidableEq

/-- Partial norm metadata attached to an alias. -/
structure Payload where
  pTipo : Str := []
  pSiglas : Str := []
  pNumero : Str := []
deriving DecidableEq, Repr

/-- Parsed query intent (`parse_query` output). -/
structure Intent where
  articuloNro : Option Str
  tipoNorma : Option Str
  numero : Option Str
  siglas : Option Str
deriving DecidableEq, Repr

/-- Python truthiness of an optional string signal. -/
def optTruthy (o : Option Str) : Bool := !(o.getD []).isEmpty

/-- `HybridRetriever` state: the collection, the two index oracles, the
persisted chunk-metadata map, the alias table and the configuration. -/
structure RState where
  collection : List CEntry
  vectorQuery : List ℚ → Nat → Option (List (MField × Str)) → List VRes
  bm25Ids : List Str
  bm25Scores : List Str → List ℚ
  idToMeta : Str → Option Meta
  aliasIndex : List (Str × Payload)
  topkVector : Nat
  topkBm25 : Nat
  topkFinal : Nat
  wVector : ℚ
  wBm25 : ℚ

/-- `_extract_articulo` attempt at position `i` of the lowered query:
`(?<!\w)art(?:[íi]culo)?\.?\s*(\d{1,4})(?!\d)`. -/
def artQAt (ql : Str) (i : Nat) : Option Str :=
  if i ≠ 0 && isWordC (chAt ql (i - 1)) then none
  else if litAtI ql i (strL "art") then
    firstSome (fun e =>
      firstSome (fun d =>
        let p := skipSp ql d
        let r := digitRun ql p
        if 1 ≤ r ∧ r ≤ 4 then some (sliceFT ql p (p + r)) else none)
        ((if chAt ql e == '.' then [e + 1] else []) ++ [e]))
      ((if iculoAt ql (i + 3) then [i + 8] else []) ++ [i + 3])
  else none

def searchArtQ (ql : Str) : Option Str :=
  firstSome (fun i => artQAt ql i) (List.range ql.length)

/-- First pattern of `_extract_numero_generic`:
`(?<!\d)(\d{2})\.(\d{3})(?!\d)`, formatted without the dot. -/
def dottedAt (ql : Str) (i : Nat) : Option Str :=
  if i ≠ 0 && isDg (chAt ql (i - 1)) then none
  else if isDg (chAt ql i) && isDg (chAt ql (i + 1)) && chAt ql (i + 2) == '.' &&
      isDg (chAt ql (i + 3)) && isDg (chAt ql (i + 4)) && isDg (chAt ql (i + 5)) &&
      !isDg (chAt ql (i + 6)) then
    some (sliceFT ql i (i + 2) ++ sliceFT ql (i + 3) (i + 6))
  else none

/-- Second pattern: `(?<!\d)(\d{1,3})[\/_\-](\d{2,4})(?!\d)`, formatted with a
slash. -/
def fracAt (ql : Str) (i : Nat) : Option Str :=
  if i ≠ 0 && isDg (chAt ql (i - 1)) then none
  else
    let r1 := digitRun ql i
    if 1 ≤ r1 ∧ r1 ≤ 3 then
      let sPos := i + r1
      if chAt ql sPos == '/' || chAt ql sPos == '_' || chAt ql sPos == '-' then
        let r2 := digitRun ql (sPos + 1)
        if 2 ≤ r2 ∧ r2 ≤ 4 then
          some (sliceFT ql i sPos ++ '/' :: sliceFT ql (sPos + 1) (sPos + 1 + r2))
        else none
      else none
    else none

/-- Third pattern: `(?<!\d)(\d{4,6})(?!\d)`. -/
def bareAt (ql : Str) (i : Nat) : Option Str :=
  if i ≠ 0 && isDg (chAt ql (i - 1)) then none
  else
    let r := digitRun ql i
    if 4 ≤ r ∧ r ≤ 6 then some (sliceFT ql i (i + r)) else none

def searchDotted (ql : Str) : Option Str :=
  firstSome (fun i => dottedAt ql i) (List.range ql.length)

def searchFrac (ql : Str) : Option Str :=
  firstSome (fun i => fracAt ql i) (List.range ql.length)

def searchBare (ql : Str) : Option Str :=
  firstSome (fun i => bareAt ql i) (List.range ql.length)

/-- `_extract_numero_generic`: the three patterns in priority order. -/
def extractNumeroGeneric (ql : Str) : Option Str :=
  match searchDotted ql with
  | some n => some n
  | none =>
    match searchFrac ql with
    | some n => some n
    | none => searchBare ql

/-- `_extract_tipo_norma`. -/
def extractTipoNorma (ql : Str) : Option Str :=
  if containsSub (strL "ley") ql then some (strL "ley")
  else if containsSub (strL "decreto") ql || containsSub (strL "dec.") ql ||
      containsSub (strL "dnu") ql then some (strL "decreto")
  else if containsSub (strL "resol") ql || containsSub (strL "rg") ql ||
      containsSub (strL "res.") ql then some (strL "resolucion")
  else if containsSub (strL "codigo") ql || containsSub (strL "código") ql ||
      containsSub (strL "ccycn") ql then some (strL "codigo")
  else none

/-- The inline acronym detection of `parse_query`. -/
def extractSiglas (ql : Str) : Option Str :=
  if containsSub (strL "lgs") ql ||
      containsSub (strL "ley general de sociedades") ql then some (strL "lgs")
  else if containsSub (strL "ccycn") ql then some (strL "ccycn")
  else if containsSub (strL "igj") ql then some (strL "igj")
  else if containsSub (strL "sas") ql then some (strL "sas")
  else none

/-- `resolve_alias_anchors`: first alias occurring as a substring wins. -/
def resolveAliasAnchors (ql : Str) : List (Str × Payload) → Payload
  | [] => {}
  | (a, p) :: t =>
    if !a.isEmpty && containsSub a ql then p else resolveAliasAnchors ql t

/-- `parse_query`: explicit signals win, alias-derived ones fill gaps. -/
def parseQuery (ai : List (Str × Payload)) (q : Str) : Intent :=
  let ql := lowerStr q
  let articulo := searchArtQ ql
  let tipo := extractTipoNorma ql
  let numero := extractNumeroGeneric ql
  let siglas := extractSiglas ql
  let al := resolveAliasAnchors ql ai
  { articuloNro := articulo,
    tipoNorma :=
      if !optTruthy tipo && !al.pTipo.isEmpty then some al.pTipo else tipo,
    numero :=
      if !optTruthy numero && !al.pNumero.isEmpty then some al.pNumero
      else numero,
    siglas :=
      if !optTruthy siglas && !al.pSiglas.isEmpty then some al.pSiglas
      else siglas }

/-- `chroma_where` (the conjunction of equality filters it builds): empty and
whitespace-only values are dropped, remaining values stripped; `None` when no
item survives. -/
def chromaWhereL (d : List (MField × Str)) : Option (List (MField × Str)) :=
  let items := d.filterMap (fun kv =>
    let v := stripChars kv.2
    if v = [] then none else some (kv.1, v))
  if items = [] then none else some items

/-- `collection.get(where=...)`: entries whose metadata satisfies every
equality. -/
def collGetWhere (coll : List CEntry) (items : List (MField × Str)) :
    List CEntry :=
  coll.filter (fun e => items.all (fun kv => metaGet e.cmeta kv.1 == kv.2))

/-- The `where_exact` dict of stage 0, in insertion order. -/
def whereExact (it : Intent) : List (MField × Str) :=
  (if optTruthy it.articuloNro then [(MField.artNro, it.articuloNro.getD [])]
   else []) ++
  (if optTruthy it.numero then [(MField.numero, it.numero.getD [])] else []) ++
  (if optTruthy it.siglas then [(MField.siglas, it.siglas.getD [])] else []) ++
  (if optTruthy it.tipoNorma then [(MField.tipoNorma, it.tipoNorma.getD [])]
   else [])

/-- The `v_filter` dict (norm anchors only), in insertion order. -/
def vFilterOf (it : Intent) : List (MField × Str) :=
  (if optTruthy it.numero then [(MField.numero, it.numero.getD [])] else []) ++
  (if optTruthy it.siglas then [(MField.siglas, it.siglas.getD [])] else []) ++
  (if optTruthy it.tipoNorma then [(MField.tipoNorma, it.tipoNorma.getD [])]
   else [])

/-- The `where_force` dict of the forced-article fallback. -/
def whereForce (it : Intent) : List (MField × Str) :=
  (MField.artNro, it.articuloNro.getD []) :: vFilterOf it

/-- `simple_tokenize_es`. -/
def splitWsAux : Str → Str → List Str
  | [], cur => if cur = [] then [] else [cur.reverse]
  | c :: t, cur =>
    if c = ' ' then
      if cur = [] then splitWsAux t [] else cur.reverse :: splitWsAux t []
    else splitWsAux t (c :: cur)

def tokenizeEs (q : Str) : List Str :=
  (splitWsAux (q.map (fun c => if pyAlnum c then lowerEs c else ' ')) []).filter
    (fun t => 1 < t.length)

/-- `_minmax_norm`. -/
def listMinQ : List ℚ → ℚ
  | [] => 0
  | x :: xs => xs.foldl min x

def listMaxQ : List ℚ → ℚ
  | [] => 0
  | x :: xs => xs.foldl max x

def minmaxNorm (l : List ℚ) : List ℚ :=
  match l with
  | [] => []
  | _ :: _ =>
    let mn := listMinQ l
    let mx := listMaxQ l
    if mx - mn < 1 / 1000000000 then l.map (fun _ => 0)
    else l.map (fun x => (x - mn) / (mx - mn))

/-- Stable descending sort by a rational key (Python `list.sort` with
`reverse=True`, numpy stable argsort on the negated scores). -/
def insDescBy {α : Type} (f : α → ℚ) (x : α) : List α → List α
  | [] => [x]
  | y :: ys => if f x < f y then y :: insDescBy f x ys else x :: y :: ys

def sortDescBy {α : Type} (f : α → ℚ) : List α → List α
  | [] => []
  | x :: xs => insDescBy f x (sortDescBy f xs)

/-- Distinct elements in first-occurrence order (dict-key order of the two
candidate maps). -/
def dedupKFF : Nat → List Str → List Str
  | 0, _ => []
  | _, [] => []
  | fuel + 1, x :: xs => x :: dedupKFF fuel (xs.filter (fun y => y ≠ x))

def dedupKF (l : List Str) : List Str := dedupKFF l.length l

/-- `keyword_bonus` helpers. -/
def removeCh (cs : Str) (bad : Str) : Str := cs.filter (fun c => !bad.contains c)

/-- The article-at-line-start pattern of `keyword_bonus`:
`(?im)^\s*art(?:[íi]culo)?\.?\s*NUM\b`. -/
def artNumAt (text : Str) (i : Nat) (num : Str) : Bool :=
  let j := skipSp text i
  if litAtI text j (strL "art") then
    ((if iculoAt text (j + 3) then [j + 8] else []) ++ [j + 3]).any (fun e =>
      ((if chAt text e == '.' then [e + 1] else []) ++ [e]).any (fun d =>
        let p := skipSp text d
        litAt text p num && !isWordC (chAt text (p + num.length))))
  else false

def hasLineArtNum (text : Str) (num : Str) : Bool :=
  (List.range (text.length + 1)).any (fun i =>
    (i == 0 || chAt text (i - 1) == '\n') && artNumAt text i num)

/-- `keyword_bonus`. -/
def keywordBonus (text : Str) (it : Intent) : ℚ :=
  let t := lowerStr text
  (if optTruthy it.numero &&
      containsSub (removeCh (it.numero.getD []) ['/'])
        (removeCh t ['.', '/', '-']) then (4 : ℚ) / 100 else 0) +
  (if optTruthy it.siglas && containsSub (it.siglas.getD []) t then
    (3 : ℚ) / 100 else 0) +
  (if optTruthy it.tipoNorma && containsSub (it.tipoNorma.getD []) t then
    (1 : ℚ) / 100 else 0) +
  (if optTruthy it.articuloNro && hasLineArtNum text (it.articuloNro.getD [])
   then (6 : ℚ) / 100 else 0)

/-- `_is_from_ley`. -/
def isFromLey (m : Meta) : Bool :=
  if lowerStr m.tipoNorma == strL "ley" then true
  else
    containsSub (strL "ley")
      (lowerStr (m.sourceFile ++ ' ' :: (m.documentoNombre ++ ' ' ::
        (m.docIdM ++ ' ' :: m.normalizedFile))))

/-- `_matches_article_request`. -/
def matchesArticleRequest (m : Meta) (it : Intent) : Bool :=
  if !optTruthy it.articuloNro then false
  else if stripChars m.articuloNro ≠ stripChars (it.articuloNro.getD []) then
    false
  else
    [(MField.numero, it.numero), (MField.siglas, it.siglas),
      (MField.tipoNorma, it.tipoNorma)].all (fun kv =>
        if optTruthy kv.2 then
          stripChars (lowerStr (metaGet m kv.1)) ==
            stripChars (lowerStr (kv.2.getD []))
        else true)

/-- A retrieval result row. -/
structure RResult where
  chunkId : Str
  score : ℚ
  rtext : Str
  rmeta : Meta
  matchType : Str
deriving DecidableEq

abbrev KeyT := Str × Str × Str × Str × Str × Str

/-- The composite dedup key `(siglas, tipo, numero, articulo, pages)`. -/
def resultKey (r : RResult) : KeyT :=
  (r.rmeta.siglas, r.rmeta.tipoNorma, r.rmeta.numero, r.rmeta.articuloNro,
   r.rmeta.pageStart, r.rmeta.pageEnd)

def lookupK (k : KeyT) : List (KeyT × RResult) → Option RResult
  | [] => none
  | p :: t => if k = p.1 then some p.2 else lookupK k t

def updK (k : KeyT) (r : RResult) : List (KeyT × RResult) →
    List (KeyT × RResult)
  | [] => [(k, r)]
  | p :: t => if k = p.1 then (p.1, r) :: t else p :: updK k r t

/-- The dedup dictionary loop: keep the best-scoring result per key (a later
result replaces the stored one only when strictly better). -/
def dedupFold : List RResult → List (KeyT × RResult) → List (KeyT × RResult)
  | [], acc => acc
  | r :: rs, acc =>
    match lookupK (resultKey r) acc with
    | none => dedupFold rs (acc ++ [(resultKey r, r)])
    | some r2 =>
      if r2.score < r.score then dedupFold rs (updK (resultKey r) r acc)
      else dedupFold rs acc

def optMap {α β : Type} (f : α → Option β) : List α → Option (List β)
  | [] => some []
  | a :: t =>
    match f a, optMap f t with
    | some b, some bs => some (b :: bs)
    | _, _ => none

/-- Last-wins dictionary lookup into the vector batch (Python dict built by
comprehension). -/
def vmFind (vz : List (VRes × ℚ)) (cid : Str) : Option (VRes × ℚ) :=
  (vz.filter (fun p => p.1.vid == cid)).getLast?

def bmFind (bz : List (Str × ℚ)) (cid : Str) : Option ℚ :=
  ((bz.filter (fun p => p.1 == cid)).getLast?).map (·.2)

/-- The fused base score `W_VECTOR * v + W_BM25 * b`. -/
def fusedBase (st : RState) (v b : ℚ) : ℚ := st.wVector * v + st.wBm25 * b

/-- One merged hybrid result; `none` models the `IndexError` raised when a
lexical-only candidate is absent from the collection. -/
def buildResult (st : RState) (it : Intent) (vz : List (VRes × ℚ))
    (bz : List (Str × ℚ)) (cid : Str) : Option RResult :=
  let v : ℚ := ((vmFind vz cid).map (·.2)).getD 0
  let b : ℚ := (bmFind bz cid).getD 0
  match vmFind vz cid with
  | some p =>
    some ⟨cid, fusedBase st v b + keywordBonus p.1.vdoc it, p.1.vdoc,
      p.1.vmeta, strL "hybrid"⟩
  | none =>
    match st.collection.find? (fun e => e.cid == cid) with
    | some e =>
      some ⟨cid, fusedBase st v b + keywordBonus e.doc it, e.doc, e.cmeta,
        strL "hybrid"⟩
    | none => none

/-- The `LEY_BONUS` adjustment of stage 4. -/
def leyAdjust (r : RResult) : RResult :=
  if isFromLey r.rmeta then
    { r with score := r.score + 4 / 100,
             matchType := r.matchType ++ strL "+ley_bonus" }
  else r

/-- Stages 1-6 of `retrieve` (vector query, lexical query, merge, dedup,
statute bonus, sort). -/
def hybridOut (st : RState) (emb : List ℚ) (q : Str) (it : Intent) :
    Option (List RResult) :=
  let vf := vFilterOf it
  let vWhere := if vf = [] then none else chromaWhereL vf
  let vres := st.vectorQuery emb st.topkVector vWhere
  let vz := vres.zip (minmaxNorm (vres.map (fun r => 1 - r.vdist)))
  let scoresAll := st.bm25Scores (tokenizeEs q)
  let pool := (sortDescBy (fun i => scoresAll.getD i 0)
    (List.range scoresAll.length)).take (st.topkBm25 * 5)
  match optMap (fun i => st.bm25Ids.get? i) pool with
  | none => none
  | some candIds =>
    let candPairs := candIds.zip (pool.map (fun i => scoresAll.getD i 0))
    let bTake :=
      if vf ≠ [] then
        let filtered := candPairs.filter (fun p =>
          match st.idToMeta p.1 with
          | none => false
          | some m => vf.all (fun kv =>
              lowerStr (metaGet m kv.1) == lowerStr kv.2))
        if filtered ≠ [] then filtered.take st.topkBm25
        else candPairs.take st.topkBm25
      else candPairs.take st.topkBm25
    let bz := (bTake.map (·.1)).zip (minmaxNorm (bTake.map (·.2)))
    let cands := dedupKF (vres.map (·.vid) ++ bTake.map (·.1))
    match optMap (buildResult st it vz bz) cands with
    | none => none
    | some rs =>
      some (sortDescBy (·.score) (((dedupFold rs []).map (·.2)).map leyAdjust))

def mkExact (e : CEntry) : RResult :=
  ⟨e.cid, 2, e.doc, e.cmeta, strL "exact_metadata"⟩

def mkForced (e : CEntry) : RResult :=
  ⟨e.cid, 16 / 10, e.doc, e.cmeta, strL "forced_article_metadata"⟩

/-- Stage 0: the exact-match short-circuit (`some` when it fires). -/
def stage0 (st : RState) (it : Intent) : Option (List RResult) :=
  if optTruthy it.articuloNro &&
      (optTruthy it.numero || optTruthy it.siglas || optTruthy it.tipoNorma)
  then
    match chromaWhereL (whereExact it) with
    | some items =>
      if collGetWhere st.collection items = [] then none
      else some (((collGetWhere st.collection items).map mkExact).take
        st.topkFinal)
    | none => none
  else none

/-- The metadata-injection fallback of stage 7: when no current result
matches the requested article, look the article (plus known anchors) up in
the collection and append the chunks not already present, tagged
`forced_article_metadata` with fixed score 1.6. -/
def injectStep (st : RState) (it : Intent) (out : List RResult) :
    List RResult :=
  if out.filter (fun r => matchesArticleRequest r.rmeta it) = [] then
    match chromaWhereL (whereForce it) with
    | some items =>
      if collGetWhere st.collection items = [] then out
      else
        out ++ ((collGetWhere st.collection items).map mkForced).filter
          (fun r => !(out.map (·.chunkId)).contains r.chunkId)
    | none => out
  else out

/-- The sorted article-matching partition of stage 7. -/
def forcedOf (it : Intent) (out2 : List RResult) : List RResult :=
  sortDescBy (·.score) (out2.filter (fun r => matchesArticleRequest r.rmeta it))

/-- The reordering of stage 7: matching results first (sorted by score among
themselves), the rest in their existing order. -/
def rankStep (it : Intent) (out2 : List RResult) : List RResult :=
  if out2.filter (fun r => matchesArticleRequest r.rmeta it) = [] then out2
  else
    forcedOf it out2 ++ out2.filter (fun r =>
      !((forcedOf it out2).map (·.chunkId)).contains r.chunkId)

/-- Stage 7: forced ranking of article-matching results, with the
metadata-injection fallback. -/
def forcedStep (st : RState) (it : Intent) (out : List RResult) :
    List RResult :=
  rankStep it (injectStep st it out)

/-- `HybridRetriever.retrieve`. -/
def retrieve (st : RState) (emb : List ℚ) (q : Str) : Option (List RResult) :=
  let it := parseQuery st.aliasIndex q
  match stage0 st it with
  | some res => some res
  | none =>
    match hybridOut st emb q it with
    | none => none
    | some out =>
      some ((if optTruthy it.articuloNro then forcedStep st it out else out).take
        st.topkFinal)

/-! ## Concrete instances used by witnesses and counterexamples -/

def c10pages : List (Nat × Str) :=
  [(1, strL "PREAMBULO XYZ\nARTICULO 1. — Cuerpo")]

def c10chunk : Chunk :=
  { chunk_id := strL "d__art_1__0000", doc_id := strL "d",
    page_start := 1, page_end := 1,
    text := strL "ARTICULO 1. — Cuerpo",
    article := some (strL "1"), sectionL := none }

/-- A chunk of article 13 of the LGS, pages 5-6. -/
def metaX : Meta :=
  { articuloNro := strL "13", siglas := strL "lgs", tipoNorma := strL "ley",
    numero := strL "19550", pageStart := strL "5", pageEnd := strL "6" }

/-- A second chunk of article 13 of the LGS, pages 7-8. -/
def metaY : Meta :=
  { articuloNro := strL "13", siglas := strL "lgs", tipoNorma := strL "ley",
    numero := strL "19550", pageStart := strL "7", pageEnd := strL "8" }

def entryX : CEntry := ⟨strL "x1", strL "ARTICULO 13. — texto X", metaX⟩

def entryY : CEntry := ⟨strL "y1", strL "ARTICULO 13. — texto Y", metaY⟩

/-- A retriever over a two-chunk corpus whose index oracles return nothing. -/
def stW : RState :=
  { collection := [entryY, entryX],
    vectorQuery := fun _ _ _ => [],
    bm25Ids := [], bm25Scores := fun _ => [],
    idToMeta := fun _ => none,
    aliasIndex := [],
    topkVector := 50, topkBm25 := 50, topkFinal := 40,
    wVector := 8 / 10, wBm25 := 2 / 10 }

/-- Metadata shared by two distinct chunks (same norm, article and pages). -/
def metaAB : Meta :=
  { articuloNro := strL "13", siglas := strL "lgs",
    pageStart := strL "1", pageEnd := strL "2" }

def entryA : CEntry := ⟨strL "a1", strL "doc A", metaAB⟩

def entryB : CEntry := ⟨strL "b1", strL "doc B", metaAB⟩

/-- A retriever over two chunks sharing the composite dedup key. -/
def stAB : RState := { stW with collection := [entryA, entryB] }

/-- A retriever over an empty corpus. -/
def stEmpty : RState := { stW with collection := [] }

/-- A retriever whose corpus holds a single chunk of article 13 LGS. -/
def stU : RState := { stW with collection := [entryX] }

/-- Two hybrid results sharing the composite key with different scores. -/
def rLow : RResult := ⟨strL "r1", 0, strL "low", metaAB, strL "hybrid"⟩

def rHigh : RResult := ⟨strL "r2", 1, strL "high", metaAB, strL "hybrid"⟩

/-! ## Lemmas on decimal rendering and identifiers -/

theorem digitVal_digitChar (k : Nat) (h : k < 10) :
    digitVal (digitChar k) = k := by
  interval_cases k <;> rfl

theorem decChars_append_one (a : Str) (c : Char) :
    decChars (a ++ [c]) = decChars a * 10 + digitVal c := by
  unfold decChars
  rw [List.foldl_append]
  rfl

theorem decChars_natToCharsF :
    ∀ (fuel n : Nat), n < fuel → decChars (natToCharsF fuel n) = n := by
  intro fuel
  induction fuel with
  | zero => intro n h; omega
  | succ f ih =>
    intro n h
    rw [natToCharsF]
    split
    · rename_i h10
      have h1 : decChars [digitChar n] = digitVal (digitChar n) := by
        simp [decChars, digitVal]
      rw [h1, digitVal_digitChar n h10]
    · rename_i h10
      push_neg at h10
      have hdiv : n / 10 < f := by omega
      rw [decChars_append_one, ih (n / 10) hdiv,
        digitVal_digitChar (n % 10) (Nat.mod_lt _ (by omega))]
      omega

theorem decChars_natToChars (n : Nat) : decChars (natToChars n) = n :=
  decChars_natToCharsF (n + 1) n (Nat.lt_succ_self n)

theorem decChars_replicate_zero (k : Nat) (s : Str) :
    decChars (List.replicate k '0' ++ s) = decChars s := by
  induction k with
  | zero => rfl
  | succ k ih =>
    rw [List.replicate_succ, List.cons_append]
    have h1 : decChars ('0' :: (List.replicate k '0' ++ s)) =
        decChars (List.replicate k '0' ++ s) := rfl
    rw [h1, ih]

theorem decChars_pad4 (n : Nat) : decChars (pad4 n) = n := by
  unfold pad4
  rw [decChars_replicate_zero, decChars_natToChars]

theorem pad4_inj : Function.Injective pad4 := by
  intro m n h
  have := congrArg decChars h
  rwa [decChars_pad4, decChars_pad4] at this

theorem natToCharsF_digits :
    ∀ (fuel n : Nat), ∀ c ∈ natToCharsF fuel n, isDg c = true := by
  intro fuel
  induction fuel with
  | zero => intro n c hc; simp [natToCharsF] at hc
  | succ f ih =>
    intro n c hc
    rw [natToCharsF] at hc
    split at hc
    · rename_i h10
      rw [List.mem_singleton] at hc
      subst hc
      interval_cases n <;> rfl
    · rcases List.mem_append.mp hc with h | h
      · exact ih _ c h
      · rw [List.mem_singleton] at h
        subst h
        have : n % 10 < 10 := Nat.mod_lt _ (by omega)
        interval_cases h : n % 10 <;> rfl

theorem pad4_digits (n : Nat) : ∀ c ∈ pad4 n, isDg c = true := by
  intro c hc
  unfold pad4 at hc
  rcases List.mem_append.mp hc with h | h
  · rw [List.eq_of_mem_replicate h]
    rfl
  · exact natToCharsF_digits _ _ c h

theorem isDg_ne_underscore {c : Char} (h : isDg c = true) : c ≠ '_' := by
  intro he
  subst he
  simp [isDg] at h

/-- Splitting on a separator character that occurs in neither prefix is
unambiguous. -/
theorem splitUnd : ∀ (a b t1 t2 : Str),
    (∀ c ∈ a, c ≠ '_') → (∀ c ∈ b, c ≠ '_') →
    a ++ '_' :: t1 = b ++ '_' :: t2 → a = b ∧ t1 = t2 := by
  intro a
  induction a with
  | nil =>
    intro b t1 t2 _ hb h
    cases b with
    | nil => simpa using h
    | cons d bs =>
      simp only [List.nil_append, List.cons_append, List.cons.injEq] at h
      exact absurd h.1.symm (hb d (List.mem_cons_self d bs))
  | cons c as ih =>
    intro b t1 t2 ha hb h
    cases b with
    | nil =>
      simp only [List.cons_append, List.nil_append, List.cons.injEq] at h
      exact absurd h.1 (ha c (List.mem_cons_self c as))
    | cons d bs =>
      simp only [List.cons_append, List.cons.injEq] at h
      obtain ⟨rfl, h2⟩ := h
      obtain ⟨h3, h4⟩ := ih bs t1 t2
        (fun x hx => ha x (List.mem_cons_of_mem _ hx))
        (fun x hx => hb x (List.mem_cons_of_mem _ hx)) h2
      exact ⟨by rw [h3], h4⟩

/-! ## Lemmas on the article-header scanner -/

theorem firstSome_eq_some {α β : Type} (f : α → Option β) :
    ∀ (l : List α) (b : β), firstSome f l = some b → ∃ a ∈ l, f a = some b := by
  intro l
  induction l with
  | nil => intro b h; simp [firstSome] at h
  | cons a t ih =>
    intro b h
    rw [firstSome] at h
    cases hfa : f a with
    | some b2 =>
      rw [hfa] at h
      exact ⟨a, List.mem_cons_self a t, by rw [hfa]; exact h⟩
    | none =>
      rw [hfa] at h
      obtain ⟨a2, ha2, hf2⟩ := ih b h
      exact ⟨a2, List.mem_cons_of_mem _ ha2, hf2⟩

theorem digitRunF_pos {fuel : Nat} {cs : Str} {i : Nat}
    (h : 0 < digitRunF fuel cs i) :
    i < cs.length ∧ isDg (chAt cs i) = true := by
  cases fuel with
  | zero => simp [digitRunF] at h
  | succ f =>
    rw [digitRunF] at h
    split at h
    · rename_i hc; exact ⟨hc.1, hc.2⟩
    · omega

theorem digitRunF_slice_digits :
    ∀ (fuel : Nat) (cs : Str) (i : Nat),
      ∀ c ∈ sliceFT cs i (i + digitRunF fuel cs i), isDg c = true := by
  intro fuel
  induction fuel with
  | zero => intro cs i c hc; simp [digitRunF, sliceFT] at hc
  | succ f ih =>
    intro cs i c hc
    rw [digitRunF] at hc
    split at hc
    · rename_i hcond
      have hlen : i < cs.length := hcond.1
      have heq : sliceFT cs i (i + (digitRunF f cs (i + 1) + 1)) =
          chAt cs i :: sliceFT cs (i + 1) ((i + 1) + digitRunF f cs (i + 1)) := by
        unfold sliceFT
        rw [List.drop_eq_getElem_cons hlen]
        have h1 : i + (digitRunF f cs (i + 1) + 1) - i =
            digitRunF f cs (i + 1) + 1 := by omega
        have h2 : (i + 1) + digitRunF f cs (i + 1) - (i + 1) =
            digitRunF f cs (i + 1) := by omega
        rw [h1, h2, List.take_succ_cons]
        rw [chAt, List.getD_eq_getElem _ _ hlen]
      rw [heq] at hc
      rcases List.mem_cons.mp hc with h | h
      · rw [h]; exact hcond.2
      · exact ih cs (i + 1) c h
    · simp [sliceFT] at hc

theorem sliceFT_ne_nil {cs : Str} {i r : Nat} (hlen : i < cs.length)
    (hr : 0 < r) : sliceFT cs i (i + r) ≠ [] := by
  have hlen2 : (sliceFT cs i (i + r)).length = min (i + r - i) (cs.length - i) := by
    unfold sliceFT
    rw [List.length_take, List.length_drop]
  have hpos : 0 < (sliceFT cs i (i + r)).length := by
    rw [hlen2]
    omega
  exact List.ne_nil_of_length_pos hpos

theorem dashes_mem {c : Char} (h : dashes.contains c = true) :
    c = '—' ∨ c = '-' ∨ c = '–' := by
  simp only [dashes, List.contains, List.elem_iff, List.mem_cons,
    List.not_mem_nil, or_false] at h
  exact h

theorem sepScan_facts (cs : Str) (e3 : Nat) (pr : Nat × Nat)
    (h : sepScan cs e3 = some pr) :
    chAt cs pr.2 = '.' ∨ chAt cs pr.2 = '—' ∨ chAt cs pr.2 = '-' ∨
      chAt cs pr.2 = '–' := by
  unfold sepScan at h
  split at h
  · rename_i hdot
    split at h
    · rename_i hdash
      cases h
      rcases dashes_mem hdash with h1 | h1 | h1 <;> simp [h1]
    · cases h
      left
      exact eq_of_beq hdot
  · split at h
    · rename_i hdash
      cases h
      rcases dashes_mem hdash with h1 | h1 | h1 <;> simp [h1]
    · exact absurd h (by simp)

theorem artCont_facts (cs : Str) (e : Nat) (m : AMatch)
    (h : artCont cs e = some m) :
    (∀ c ∈ m.num, isDg c = true) ∧ m.num ≠ [] ∧
    (chAt cs m.sepPos = '.' ∨ chAt cs m.sepPos = '—' ∨
      chAt cs m.sepPos = '-' ∨ chAt cs m.sepPos = '–') := by
  unfold artCont at h
  split at h
  · exact absurd h (by simp)
  · rename_i hr
    push_neg at hr
    have hrpos : 0 < digitRun cs (artNumStart cs e) := by omega
    cases hsep : sepScan cs (artNumStart cs e + digitRun cs (artNumStart cs e)) with
    | some pr =>
      rw [hsep] at h
      cases h
      refine ⟨?_, ?_, ?_⟩
      · intro c hc
        exact digitRunF_slice_digits _ cs _ c hc
      · exact sliceFT_ne_nil (digitRunF_pos hrpos).1 hrpos
      · exact sepScan_facts cs _ pr hsep
    | none => rw [hsep] at h; exact absurd h (by simp)

theorem matchArtAt_facts (cs : Str) (i : Nat) (m : AMatch)
    (h : matchArtAt cs i = some m) :
    ∃ e ∈ kwEnds cs (skipSp cs i), artCont cs e = some m := by
  unfold matchArtAt at h
  exact firstSome_eq_some _ _ _ h

theorem artScanF_facts :
    ∀ (fuel : Nat) (cs : Str) (i : Nat), ∀ p ∈ artScanF fuel cs i,
      i ≤ p.1 ∧ (p.1 = 0 ∨ chAt cs (p.1 - 1) = '\n') ∧
        matchArtAt cs p.1 = some p.2 := by
  intro fuel
  induction fuel with
  | zero => intro cs i p hp; simp [artScanF] at hp
  | succ f ih =>
    intro cs i p hp
    rw [artScanF] at hp
    split at hp
    · split at hp
      · rename_i hline
        split at hp
        · rename_i m heq
          split at hp
          · rcases List.mem_cons.mp hp with h | h
            · subst h
              refine ⟨Nat.le_refl _, ?_, heq⟩
              rcases Bool.or_eq_true _ _ |>.mp hline with h0 | h0
              · left; exact of_decide_eq_true h0
              · right; exact eq_of_beq h0
            · obtain ⟨h1, h2, h3⟩ := ih cs m.aEnd p h
              exact ⟨by omega, h2, h3⟩
          · obtain ⟨h1, h2, h3⟩ := ih cs (i + 1) p hp
            exact ⟨by omega, h2, h3⟩
        · obtain ⟨h1, h2, h3⟩ := ih cs (i + 1) p hp
          exact ⟨by omega, h2, h3⟩
      · obtain ⟨h1, h2, h3⟩ := ih cs (i + 1) p hp
        exact ⟨by omega, h2, h3⟩
    · simp at hp

theorem artScanF_head_lt :
    ∀ (fuel : Nat) (cs : Str) (i : Nat) (q : Nat × AMatch)
      (rest : List (Nat × AMatch)),
      artScanF fuel cs i = q :: rest → ∀ p ∈ rest, q.1 < p.1 := by
  intro fuel
  induction fuel with
  | zero => intro cs i q rest h; simp [artScanF] at h
  | succ f ih =>
    intro cs i q rest h p hp
    rw [artScanF] at h
    split at h
    · split at h
      · split at h
        · rename_i m heq
          split at h
          · rename_i hlt
            injection h with h1 h2
            subst h1
            subst h2
            have := (artScanF_facts f cs m.aEnd p hp).1
            simp only
            omega
          · exact ih cs (i + 1) q rest h p hp
        · exact ih cs (i + 1) q rest h p hp
      · exact ih cs (i + 1) q rest h p hp
    · simp at h

/-! ## C8: norm-number extraction priority -/

/-- C8: `_extract_numero_generic` tries the dotted-thousands pattern, then the
fraction pattern, then the bare 4-6 digit pattern, in that order; the first
match determines the result, later patterns are never attempted once one
matches, and a query matching several patterns resolves by this priority
rather than erroring.  The concrete conjuncts check the documented formats. -/
theorem c8_numero_priority :
    (∀ ql n, searchDotted ql = some n → extractNumeroGeneric ql = some n) ∧
    (∀ ql n, searchDotted ql = none → searchFrac ql = some n →
      extractNumeroGeneric ql = some n) ∧
    (∀ ql, searchDotted ql = none → searchFrac ql = none →
      extractNumeroGeneric ql = searchBare ql) ∧
    extractNumeroGeneric (strL "ley 27.349") = some (strL "27349") ∧
    extractNumeroGeneric (strL "resolucion 15/24") = some (strL "15/24") ∧
    extractNumeroGeneric (strL "ley 19550") = some (strL "19550") := by
  refine ⟨?_, ?_, ?_, ?_, ?_, ?_⟩
  · intro ql n h
    unfold extractNumeroGeneric
    rw [h]
  · intro ql n hd hf
    unfold extractNumeroGeneric
    rw [hd, hf]
  · intro ql hd hf
    unfold extractNumeroGeneric
    rw [hd, hf]
  · decide
  · decide
  · decide

/-- Witness for C8: a query matching both the dotted and the fraction pattern
is resolved by the dotted pattern. -/
theorem c8_numero_priority_witness :
    searchDotted (strL "ley 27.349 o 15-24") = some (strL "27349") ∧
    extractNumeroGeneric (strL "ley 27.349 o 15-24") = some (strL "27349") :=
  ⟨by decide, c8_numero_priority.1 _ _ (by decide)⟩

/-! ## C5: segmentation mode homogeneity -/

theorem modeBLoopF_article_none (doc textAll : Str) (sec : Option Str)
    (p1 p2 cc stp : Nat) :
    ∀ (fuel i idx : Nat),
      ∀ c ∈ modeBLoopF doc textAll sec p1 p2 cc stp fuel i idx,
        c.article = none := by
  intro fuel
  induction fuel with
  | zero => intro i idx c hc; simp [modeBLoopF] at hc
  | succ n ih =>
    intro i idx c hc
    rw [modeBLoopF] at hc
    split at hc
    · split at hc
      · simp at hc
      · rcases List.mem_cons.mp hc with h | h
        · rw [h]
        · exact ih _ _ c h
    · simp at hc

/-- C5: the segmentation mode is selected by header detection and the output
is homogeneous: when `_ARTICLE_RE` finds at least one header in the marked
buffer, every emitted chunk carries an article number (Mode A); when it finds
none, every emitted chunk is a fixed-window fallback chunk with no article
number (Mode B); the two kinds are never mixed. -/
theorem c5_mode_homogeneity (doc : Str) (pages : List (Nat × Str))
    (ct ot : Nat) :
    ((chunkPagesLegalAware doc pages ct ot).all
      (fun c => c.article.isSome = !(artFinditer (fullOf pages)).isEmpty)) =
      true := by
  unfold chunkPagesLegalAware
  match pages with
  | [] => rfl
  | p :: ps =>
    simp only
    cases hA : artFinditer (fullOf (p :: ps)) with
    | cons a as =>
      rw [if_pos (by simp)]
      rw [List.all_eq_true]
      intro c hc
      simp only [List.mem_map] at hc
      obtain ⟨idx, _, heq⟩ := hc
      rw [← heq]
      rfl
    | nil =>
      rw [if_neg (by simp)]
      split
      · rfl
      · rw [List.all_eq_true]
        intro c hc
        simp only [modeBLoop] at hc
        have := modeBLoopF_article_none _ _ _ _ _ _ _ _ 0 0 c hc
        simp [this]

/-! ## C4: header-boundary detection -/

/-- C4 counterexample: the claim says a boundary is created only when the
numeral is followed by period+dash, em-dash or plain dash.  The page below
contains no dash glyph at all, yet the segmenter creates an article chunk for
it: `_ARTICLE_RE` also accepts a bare period as separator. -/
theorem c4_counterexample :
    chunkPagesLegalAware (strL "d") [(1, strL "ARTICULO 13. Texto de prueba")]
        800 120 =
      [{ chunk_id := strL "d__art_13__0000", doc_id := strL "d",
         page_start := 1, page_end := 1,
         text := strL "ARTICULO 13. Texto de prueba",
         article := some (strL "13"), sectionL := none }] ∧
    ((strL "ARTICULO 13. Texto de prueba").all
      (fun c => !dashes.contains c)) = true := by
  constructor
  · with_unfolding_all rfl
  · decide

/-- C4 (amended): the segmenter creates an article boundary only at a
line-start position where the header keyword group matches and the numeral is
followed (after optional ordinal marker and whitespace) by a separator glyph
that is a period, em-dash, plain dash or en-dash (the period+dash form ends at
its dash); a mid-paragraph reference such as the sentence below never starts a
chunk, while a true header at line start does. -/
theorem c4_header_boundaries :
    (∀ (cs : Str) (p : Nat × AMatch), p ∈ artFinditer cs →
      (p.1 = 0 ∨ chAt cs (p.1 - 1) = '\n') ∧
      (∃ e ∈ kwEnds cs (skipSp cs p.1), artCont cs e = some p.2) ∧
      (∀ c ∈ p.2.num, isDg c = true) ∧ p.2.num ≠ [] ∧
      (chAt cs p.2.sepPos = '.' ∨ chAt cs p.2.sepPos = '—' ∨
        chAt cs p.2.sepPos = '-' ∨ chAt cs p.2.sepPos = '–')) ∧
    ((chunkPagesLegalAware (strL "d")
        [(1, strL "Intro en el artículo 248 dice algo util para el caso")]
        800 120).all (fun c => c.article.isNone)) = true ∧
    ((chunkPagesLegalAware (strL "d") [(1, strL "ARTICULO 13. — Texto")]
        800 120).map (·.article)) = [some (strL "13")] := by
  refine ⟨?_, by with_unfolding_all rfl, by with_unfolding_all rfl⟩
  intro cs p hp
  obtain ⟨_, hline, hmatch⟩ := artScanF_facts _ cs 0 p hp
  obtain ⟨e, he, hcont⟩ := matchArtAt_facts cs p.1 p.2 hmatch
  obtain ⟨hdg, hne, hsep⟩ := artCont_facts cs e p.2 hcont
  exact ⟨hline, ⟨e, he, hcont⟩, hdg, hne, hsep⟩

/-- Witness for C4 (amended), at the match found in a concrete buffer. -/
theorem c4_header_boundaries_witness :
    ((9 : Nat) = 0 ∨
      chAt (strL "[PAGE 1]\nARTICULO 13. Texto") (9 - 1) = '\n') ∧
    (∃ e ∈ kwEnds (strL "[PAGE 1]\nARTICULO 13. Texto")
        (skipSp (strL "[PAGE 1]\nARTICULO 13. Texto") 9),
      artCont (strL "[PAGE 1]\nARTICULO 13. Texto") e =
        some ⟨21, strL "13", 20⟩) ∧
    (∀ c ∈ (strL "13"), isDg c = true) ∧ (strL "13") ≠ [] ∧
    (chAt (strL "[PAGE 1]\nARTICULO 13. Texto") 20 = '.' ∨
      chAt (strL "[PAGE 1]\nARTICULO 13. Texto") 20 = '—' ∨
      chAt (strL "[PAGE 1]\nARTICULO 13. Texto") 20 = '-' ∨
      chAt (strL "[PAGE 1]\nARTICULO 13. Texto") 20 = '–') :=
  c4_header_boundaries.1 (strL "[PAGE 1]\nARTICULO 13. Texto")
    (9, ⟨21, strL "13", 20⟩) (by with_unfolding_all decide)

/-! ## C9: identifier uniqueness and determinism -/

theorem modeA_id_inj (doc : Str) (normPages : List (Nat × Str)) (full : Str)
    (ms : List (Nat × AMatch))
    (hnum : ∀ idx, ∀ c ∈ (ms.getD idx amDflt).2.num, isDg c = true) :
    Function.Injective
      (fun idx => (modeAChunk doc normPages full ms idx).chunk_id) := by
  intro i j h
  simp only [modeAChunk, List.append_assoc] at h
  have h2 := List.append_cancel_left h
  have h3 := List.append_cancel_left h2
  have h4 : (ms.getD i amDflt).2.num ++ '_' :: ('_' :: pad4 i) =
      (ms.getD j amDflt).2.num ++ '_' :: ('_' :: pad4 j) := h3
  obtain ⟨-, h5⟩ := splitUnd _ _ _ _
    (fun c hc => isDg_ne_underscore (hnum i c hc))
    (fun c hc => isDg_ne_underscore (hnum j c hc)) h4
  have h6 : pad4 i = pad4 j := by
    injection h5
  exact pad4_inj h6

theorem modeBLoopF_ids (doc textAll : Str) (sec : Option Str)
    (p1 p2 cc stp : Nat) :
    ∀ (fuel i idx : Nat),
      (∀ c ∈ modeBLoopF doc textAll sec p1 p2 cc stp fuel i idx,
        ∃ k, idx ≤ k ∧ c.chunk_id = doc ++ strL "__chunk__" ++ pad4 k) ∧
      ((modeBLoopF doc textAll sec p1 p2 cc stp fuel i idx).map
        (·.chunk_id)).Nodup := by
  intro fuel
  induction fuel with
  | zero => intro i idx; constructor
            · intro c hc; simp [modeBLoopF] at hc
            · simp [modeBLoopF]
  | succ f ih =>
    intro i idx
    constructor
    · intro c hc
      rw [modeBLoopF] at hc
      split at hc
      · split at hc
        · simp at hc
        · rcases List.mem_cons.mp hc with h | h
          · rw [h]
            exact ⟨idx, Nat.le_refl _, rfl⟩
          · obtain ⟨k, hk, hid⟩ := (ih _ (idx + 1)).1 c h
            exact ⟨k, by omega, hid⟩
      · simp at hc
    · rw [modeBLoopF]
      split
      · split
        · simp
        · rw [List.map_cons, List.nodup_cons]
          refine ⟨?_, (ih _ (idx + 1)).2⟩
          intro hmem
          rw [List.mem_map] at hmem
          obtain ⟨c, hc, hid⟩ := hmem
          obtain ⟨k, hk, hid2⟩ := (ih _ (idx + 1)).1 c hc
          rw [hid2] at hid
          have := List.append_cancel_left hid
          have := pad4_inj this
          omega
      · simp

/-- C9: chunk identifiers are pairwise distinct within one segmentation run —
article mode ids are determined by (doc, article, ordinal) and fallback ids by
(doc, ordinal) — and segmentation is a pure function, so re-running it on the
same input yields identical identifiers and boundaries. -/
theorem c9_chunk_ids (doc : Str) (pages : List (Nat × Str)) (ct ot : Nat) :
    ((chunkPagesLegalAware doc pages ct ot).map (·.chunk_id)).Nodup ∧
    chunkPagesLegalAware doc pages ct ot =
      chunkPagesLegalAware doc pages ct ot := by
  refine ⟨?_, rfl⟩
  unfold chunkPagesLegalAware
  match pages with
  | [] => exact List.nodup_nil
  | p :: ps =>
    simp only
    split
    · rw [List.map_map]
      apply List.Nodup.map _ (List.nodup_range _)
      have hnum : ∀ idx, ∀ c ∈
          ((artFinditer (fullOf (p :: ps))).getD idx amDflt).2.num,
          isDg c = true := by
        intro idx c hc
        by_cases hidx : idx < (artFinditer (fullOf (p :: ps))).length
        · rw [List.getD_eq_getElem _ _ hidx] at hc
          have hmem : (artFinditer (fullOf (p :: ps)))[idx] ∈
              artFinditer (fullOf (p :: ps)) := List.getElem_mem _
          obtain ⟨-, -, hmatch⟩ := artScanF_facts _ _ 0 _ hmem
          obtain ⟨e, -, hcont⟩ := matchArtAt_facts _ _ _ hmatch
          exact (artCont_facts _ _ _ hcont).1 c hc
        · rw [List.getD_eq_default] at hc
          · simp [amDflt] at hc
          · omega
      exact modeA_id_inj doc (normPagesOf (p :: ps)) (fullOf (p :: ps))
        (artFinditer (fullOf (p :: ps))) hnum
    · split
      · exact List.nodup_nil
      · simp only [modeBLoop]
        exact (modeBLoopF_ids _ _ _ _ _ _ _ _ 0 0).2

/-! ## C10: preamble before the first header is dropped -/

/-- C10: in article mode every chunk is built from a span of the concatenated
buffer that starts at a detected header-match position, and every such start
is at or after the first match start, so buffer text before the first header
(such as the preamble in the concrete document below) appears in no chunk. -/
theorem c10_preamble_dropped :
    (∀ (doc : Str) (pages : List (Nat × Str)) (ct ot : Nat)
      (q : Nat × AMatch) (rest : List (Nat × AMatch)),
      pages ≠ [] →
      artFinditer (fullOf pages) = q :: rest →
      ∀ c ∈ chunkPagesLegalAware doc pages ct ot,
        ∃ idx < (artFinditer (fullOf pages)).length,
          q.1 ≤ ((artFinditer (fullOf pages)).getD idx amDflt).1 ∧
          c = modeAChunk doc (normPagesOf pages) (fullOf pages)
            (artFinditer (fullOf pages)) idx ∧
          c.text = stripChars (remMarks (sliceFT (fullOf pages)
            ((artFinditer (fullOf pages)).getD idx amDflt).1
            (if idx + 1 < (artFinditer (fullOf pages)).length then
              ((artFinditer (fullOf pages)).getD (idx + 1) amDflt).1
             else (fullOf pages).length)) 0)) ∧
    chunkPagesLegalAware (strL "d")
        [(1, strL "PREAMBULO XYZ\nARTICULO 1. — Cuerpo")] 800 120 =
      [{ chunk_id := strL "d__art_1__0000", doc_id := strL "d",
         page_start := 1, page_end := 1,
         text := strL "ARTICULO 1. — Cuerpo",
         article := some (strL "1"), sectionL := none }] ∧
    containsSub (strL "XYZ") (strL "ARTICULO 1. — Cuerpo") = false := by
  refine ⟨?_, by with_unfolding_all rfl, by decide⟩
  intro doc pages ct ot q rest hne hms c hc
  unfold chunkPagesLegalAware at hc
  match pages, hne with
  | p :: ps, _ =>
    simp only at hc
    rw [hms] at hc
    simp only [ne_eq, reduceCtorEq, not_false_eq_true, if_true] at hc
    rw [List.mem_map] at hc
    obtain ⟨idx, hidx, heq⟩ := hc
    rw [List.mem_range] at hidx
    rw [hms]
    refine ⟨idx, hidx, ?_, ?_, ?_⟩
    · cases idx with
      | zero => exact Nat.le_refl _
      | succ n =>
        have hn : n < rest.length := by
          simp only [List.length_cons] at hidx
          omega
        have h0 : (q :: rest).getD (n + 1) amDflt = rest.getD n amDflt := rfl
        rw [h0, List.getD_eq_getElem _ _ hn]
        exact Nat.le_of_lt (artScanF_head_lt _ _ 0 q rest hms _
          (List.getElem_mem _))
    · rw [← heq]
    · rw [← heq]
      rfl

/-- Witness for C10 at a concrete one-header document with a preamble. -/
theorem c10_preamble_dropped_witness :
    ∃ idx < (artFinditer (fullOf c10pages)).length,
      (23 : Nat) ≤ ((artFinditer (fullOf c10pages)).getD idx amDflt).1 ∧
      c10chunk = modeAChunk (strL "d") (normPagesOf c10pages)
        (fullOf c10pages) (artFinditer (fullOf c10pages)) idx ∧
      c10chunk.text = stripChars (remMarks (sliceFT (fullOf c10pages)
        ((artFinditer (fullOf c10pages)).getD idx amDflt).1
        (if idx + 1 < (artFinditer (fullOf c10pages)).length then
          ((artFinditer (fullOf c10pages)).getD (idx + 1) amDflt).1
         else (fullOf c10pages).length)) 0) :=
  c10_preamble_dropped.1 (strL "d") c10pages 800 120
    (23, ⟨36, strL "1", 35⟩) [] (by simp [c10pages])
    (by with_unfolding_all rfl) c10chunk
    (by rw [show chunkPagesLegalAware (strL "d") c10pages 800 120 =
          [c10chunk] from c10_preamble_dropped.2.1]
        exact List.mem_singleton.mpr rfl)

/-! ## C1: exact-match short-circuit -/

/-- C1: when the parsed intent carries an article number and at least one
other anchor, and the metadata-equality lookup on all present anchor fields
returns at least one chunk, `retrieve` returns exactly those chunks truncated
to the final top-K, each with the fixed maximal score 2.0 and
`match_type = exact_metadata`; no hybrid-stage candidate appears. -/
theorem c1_exact_short_circuit (st : RState) (emb : List ℚ) (q : Str)
    (items : List (MField × Str))
    (hA : optTruthy (parseQuery st.aliasIndex q).articuloNro = true)
    (hAnchor : (optTruthy (parseQuery st.aliasIndex q).numero ||
      optTruthy (parseQuery st.aliasIndex q).siglas ||
      optTruthy (parseQuery st.aliasIndex q).tipoNorma) = true)
    (hW : chromaWhereL (whereExact (parseQuery st.aliasIndex q)) = some items)
    (hNE : collGetWhere st.collection items ≠ []) :
    retrieve st emb q =
      some (((collGetWhere st.collection items).map mkExact).take
        st.topkFinal) ∧
    ∀ r ∈ ((collGetWhere st.collection items).map mkExact).take st.topkFinal,
      r.score = 2 ∧ r.matchType = strL "exact_metadata" := by
  constructor
  · have hs0 : stage0 st (parseQuery st.aliasIndex q) =
        some (((collGetWhere st.collection items).map mkExact).take
          st.topkFinal) := by
      unfold stage0
      rw [hA, hAnchor, hW]
      simp [hNE]
    simp only [retrieve, hs0]
  · intro r hr
    have hr2 : r ∈ (collGetWhere st.collection items).map mkExact :=
      List.mem_of_mem_take hr
    rw [List.mem_map] at hr2
    obtain ⟨e, -, he⟩ := hr2
    rw [← he]
    exact ⟨rfl, rfl⟩

/-- Witness for C1 on a concrete two-chunk corpus and a fully-anchored
query. -/
theorem c1_exact_short_circuit_witness :
    retrieve stW [] (strL "articulo 13 lgs") =
      some (((collGetWhere stW.collection
        [(MField.artNro, strL "13"), (MField.siglas, strL "lgs")]).map
          mkExact).take stW.topkFinal) ∧
    ∀ r ∈ ((collGetWhere stW.collection
        [(MField.artNro, strL "13"), (MField.siglas, strL "lgs")]).map
          mkExact).take stW.topkFinal,
      r.score = 2 ∧ r.matchType = strL "exact_metadata" :=
  c1_exact_short_circuit stW [] (strL "articulo 13 lgs")
    [(MField.artNro, strL "13"), (MField.siglas, strL "lgs")]
    (by with_unfolding_all rfl) (by with_unfolding_all rfl)
    (by with_unfolding_all rfl) (by with_unfolding_all decide)

/-! ## C6: fusion monotonicity and single-index candidates -/

theorem optMap_mem {α β : Type} (f : α → Option β) :
    ∀ (l : List α) (bs : List β), optMap f l = some bs →
      ∀ a ∈ l, ∃ b ∈ bs, f a = some b := by
  intro l
  induction l with
  | nil => intro bs h a ha; simp at ha
  | cons x t ih =>
    intro bs h a ha
    rw [optMap] at h
    cases hfx : f x with
    | none => rw [hfx] at h; exact absurd h (by simp)
    | some b =>
      rw [hfx] at h
      cases hot : optMap f t with
      | none => rw [hot] at h; exact absurd h (by simp)
      | some bs2 =>
        rw [hot] at h
        cases h
        rcases List.mem_cons.mp ha with h1 | h1
        · exact ⟨b, List.mem_cons_self _ _, by rw [h1]; exact hfx⟩
        · obtain ⟨b2, hb2, hf2⟩ := ih bs2 hot a h1
          exact ⟨b2, List.mem_cons_of_mem _ hb2, hf2⟩

theorem buildResult_spec (st : RState) (it : Intent) (vz : List (VRes × ℚ))
    (bz : List (Str × ℚ)) (cid : Str) (r : RResult)
    (h : buildResult st it vz bz cid = some r) :
    r.chunkId = cid ∧
    r.score = fusedBase st (((vmFind vz cid).map (·.2)).getD 0)
      ((bmFind bz cid).getD 0) + keywordBonus r.rtext it := by
  unfold buildResult at h
  cases hvm : vmFind vz cid with
  | some p =>
    rw [hvm] at h
    cases h
    exact ⟨rfl, rfl⟩
  | none =>
    rw [hvm] at h
    cases hfe : st.collection.find? (fun e => e.cid == cid) with
    | some e =>
      rw [hfe] at h
      cases h
      exact ⟨rfl, rfl⟩
    | none => rw [hfe] at h; exact absurd h (by simp)

/-- C6: with non-negative vector weight, raising the normalized vector score
while holding the lexical score and the bonus-relevant text fixed never
lowers the fused score; and every candidate id that enters the merge — even
one present in only one index, whose missing side contributes exactly 0 via
the `getD 0` defaults — yields a result with exactly the fused score
`W_VECTOR * v + W_BM25 * b` plus its keyword bonus, rather than being
excluded. -/
theorem c6_fusion_monotone :
    (∀ (st : RState) (v v2 b bonus : ℚ), 0 ≤ st.wVector → v ≤ v2 →
      fusedBase st v b + bonus ≤ fusedBase st v2 b + bonus) ∧
    (∀ (st : RState) (it : Intent) (vz : List (VRes × ℚ))
      (bz : List (Str × ℚ)) (cands : List Str) (rs : List RResult)
      (cid : Str), optMap (buildResult st it vz bz) cands = some rs →
      cid ∈ cands →
      ∃ r ∈ rs, r.chunkId = cid ∧
        r.score = fusedBase st (((vmFind vz cid).map (·.2)).getD 0)
          ((bmFind bz cid).getD 0) + keywordBonus r.rtext it) := by
  constructor
  · intro st v v2 b bonus hw hv
    unfold fusedBase
    have := mul_le_mul_of_nonneg_left hv hw
    linarith
  · intro st it vz bz cands rs cid hmap hmem
    obtain ⟨r, hr, hbuild⟩ := optMap_mem _ cands rs hmap cid hmem
    obtain ⟨h1, h2⟩ := buildResult_spec st it vz bz cid r hbuild
    exact ⟨r, hr, h1, h2⟩

/-- Witness for C6: monotonicity at concrete weights and scores, and a
lexical-only candidate that still receives a fused score. -/
theorem c6_fusion_monotone_witness :
    fusedBase stW 0 1 + 0 ≤ fusedBase stW (1 / 2) 1 + 0 ∧
    ∃ r ∈ [⟨strL "x1", fusedBase stW 0 0 + keywordBonus (strL
        "ARTICULO 13. — texto X") ⟨none, none, none, none⟩,
        strL "ARTICULO 13. — texto X", metaX, strL "hybrid"⟩],
      RResult.chunkId r = strL "x1" ∧
      RResult.score r = fusedBase stW
        ((Option.map (·.2) (vmFind [] (strL "x1"))).getD 0)
        ((bmFind [] (strL "x1")).getD 0) +
        keywordBonus (RResult.rtext r) ⟨none, none, none, none⟩ :=
  ⟨c6_fusion_monotone.1 stW 0 (1 / 2) 1 0 (by with_unfolding_all decide)
      (by with_unfolding_all decide),
    c6_fusion_monotone.2 stW ⟨none, none, none, none⟩ [] []
      [strL "x1"] _ (strL "x1") (by with_unfolding_all rfl)
      (List.mem_singleton.mpr rfl)⟩

/-! ## C7: empty corpus and the final bound -/

theorem stage0_shape (st : RState) (it : Intent) (res : List RResult)
    (h : stage0 st it = some res) :
    ∃ l : List RResult, res = l.take st.topkFinal := by
  unfold stage0 at h
  split at h
  · split at h
    · split at h
      · exact absurd h (by simp)
      · exact ⟨_, (Option.some.inj h).symm⟩
    · exact absurd h (by simp)
  · exact absurd h (by simp)

theorem stage0_empty_collection (st : RState) (it : Intent)
    (hc : st.collection = []) : stage0 st it = none := by
  unfold stage0
  split
  · cases hcw : chromaWhereL (whereExact it) with
    | some items => simp [hc, collGetWhere]
    | none => simp
  · rfl

theorem forcedStep_empty (st : RState) (it : Intent)
    (hc : st.collection = []) : forcedStep st it [] = [] := by
  have hinj : injectStep st it [] = [] := by
    unfold injectStep
    cases hcw : chromaWhereL (whereForce it) with
    | some items => simp [hc, collGetWhere]
    | none => simp
  unfold forcedStep
  rw [hinj]
  rfl

theorem hybridOut_empty (st : RState) (emb : List ℚ) (q : Str) (it : Intent)
    (hv : ∀ e n w, st.vectorQuery e n w = [])
    (hs : ∀ t, st.bm25Scores t = []) :
    hybridOut st emb q it = some [] := by
  simp [hybridOut, hv, hs, optMap, dedupKFF, dedupFold, sortDescBy,
    minmaxNorm, dedupKF]

/-- C7: against an empty corpus (collection, vector index and lexical index
all return nothing) `retrieve` returns `some []` — the empty sequence, with
no exception — for every query including the empty one; and every successful
`retrieve` call returns at most the configured final top-K results. -/
theorem c7_empty_corpus (st : RState) (emb : List ℚ) (q : Str)
    (hc : st.collection = [])
    (hv : ∀ e n w, st.vectorQuery e n w = [])
    (hb : st.bm25Ids = [])
    (hs : ∀ t, st.bm25Scores t = []) :
    retrieve st emb q = some [] ∧
    ∀ (st2 : RState) (emb2 : List ℚ) (q2 : Str) (res : List RResult),
      retrieve st2 emb2 q2 = some res → res.length ≤ st2.topkFinal := by
  constructor
  · simp only [retrieve, stage0_empty_collection st _ hc,
      hybridOut_empty st emb q _ hv hs]
    rw [forcedStep_empty st _ hc]
    simp
  · intro st2 emb2 q2 res h
    simp only [retrieve] at h
    cases hs0 : stage0 st2 (parseQuery st2.aliasIndex q2) with
    | some r0 =>
      rw [hs0] at h
      cases h
      obtain ⟨l, hl⟩ := stage0_shape st2 _ _ hs0
      rw [hl]
      exact List.length_take_le _ _
    | none =>
      rw [hs0] at h
      cases hh : hybridOut st2 emb2 q2 (parseQuery st2.aliasIndex q2) with
      | none => rw [hh] at h; exact absurd h (by simp)
      | some out =>
        rw [hh] at h
        cases h
        exact List.length_take_le _ _

/-- Witness for C7 on a concrete empty-corpus retriever and the empty
query. -/
theorem c7_empty_corpus_witness :
    retrieve stEmpty [] [] = some [] ∧
    ∀ (st2 : RState) (emb2 : List ℚ) (q2 : Str) (res : List RResult),
      retrieve st2 emb2 q2 = some res → res.length ≤ st2.topkFinal :=
  c7_empty_corpus stEmpty [] [] rfl (fun _ _ _ => rfl) rfl (fun _ => rfl)

/-! ## Lemmas on sorting and the dedup dictionary -/

theorem insDescBy_perm {α : Type} (f : α → ℚ) (x : α) :
    ∀ l : List α, (insDescBy f x l).Perm (x :: l) := by
  intro l
  induction l with
  | nil => exact List.Perm.refl _
  | cons y ys ih =>
    rw [insDescBy]
    split
    · exact (ih.cons y).trans (List.Perm.swap x y ys)
    · exact List.Perm.refl _

theorem sortDescBy_perm {α : Type} (f : α → ℚ) :
    ∀ l : List α, (sortDescBy f l).Perm l := by
  intro l
  induction l with
  | nil => exact List.Perm.refl _
  | cons x xs ih =>
    rw [sortDescBy]
    exact (insDescBy_perm f x (sortDescBy f xs)).trans (ih.cons x)

theorem sortDescBy_mem {α : Type} {f : α → ℚ} {l : List α} {a : α} :
    a ∈ sortDescBy f l ↔ a ∈ l :=
  (sortDescBy_perm f l).mem_iff

theorem pairwiseOfMem {α : Type} {R : α → α → Prop} :
    ∀ l : List α, (∀ a ∈ l, ∀ b ∈ l, R a b) → List.Pairwise R l := by
  intro l
  induction l with
  | nil => intro _; exact List.Pairwise.nil
  | cons x xs ih =>
    intro h
    refine List.Pairwise.cons ?_ (ih ?_)
    · intro b hb
      exact h x (List.mem_cons_self _ _) b (List.mem_cons_of_mem _ hb)
    · intro a ha b hb
      exact h a (List.mem_cons_of_mem _ ha) b (List.mem_cons_of_mem _ hb)

theorem pairwise_of_subperm {α : Type} {R : α → α → Prop}
    (hsym : ∀ {x y : α}, R x y → R y x) {l1 l2 : List α}
    (hsub : l1.Subperm l2) (h : List.Pairwise R l2) : List.Pairwise R l1 := by
  obtain ⟨l, hperm, hsl⟩ := hsub
  exact (hperm.pairwise_iff hsym).mp (List.Pairwise.sublist hsl h)

theorem lookupK_eq_none_iff (k : KeyT) :
    ∀ acc : List (KeyT × RResult),
      lookupK k acc = none ↔ k ∉ acc.map (·.1) := by
  intro acc
  induction acc with
  | nil =>
    rw [lookupK]
    simp only [List.map_nil, List.not_mem_nil, not_false_eq_true, iff_true]
  | cons p t ih =>
    rw [lookupK]
    split
    · rename_i he
      constructor
      · intro hcontra
        exact absurd hcontra (by simp)
      · intro hmem
        exfalso
        apply hmem
        rw [List.map_cons]
        exact List.mem_cons.mpr (Or.inl he)
    · rename_i he
      simp only [List.map_cons, List.mem_cons]
      rw [ih]
      constructor
      · intro h1 h2
        rcases h2 with h2 | h2
        · exact he h2
        · exact h1 h2
      · intro h1 h2
        exact h1 (Or.inr h2)

theorem lookupK_append_left {k : KeyT} {v : RResult} :
    ∀ (acc l2 : List (KeyT × RResult)), lookupK k acc = some v →
      lookupK k (acc ++ l2) = some v := by
  intro acc
  induction acc with
  | nil => intro l2 h; simp [lookupK] at h
  | cons p t ih =>
    intro l2 h
    rw [lookupK] at h
    rw [List.cons_append, lookupK]
    split
    · rw [if_pos (by assumption)] at h
      exact h
    · rw [if_neg (by assumption)] at h
      exact ih l2 h

theorem lookupK_append_right {k : KeyT} :
    ∀ (acc l2 : List (KeyT × RResult)), lookupK k acc = none →
      lookupK k (acc ++ l2) = lookupK k l2 := by
  intro acc
  induction acc with
  | nil => intro l2 _; rfl
  | cons p t ih =>
    intro l2 h
    rw [lookupK] at h
    rw [List.cons_append, lookupK]
    split
    · rw [if_pos (by assumption)] at h
      exact absurd h (by simp)
    · rw [if_neg (by assumption)] at h
      exact ih l2 h

theorem lookupK_updK_self (k : KeyT) (r : RResult) :
    ∀ acc : List (KeyT × RResult), lookupK k (updK k r acc) = some r := by
  intro acc
  induction acc with
  | nil => simp [updK, lookupK]
  | cons p t ih =>
    rw [updK]
    split
    · rename_i he
      rw [lookupK, if_pos he]
    · rename_i he
      rw [lookupK, if_neg he]
      exact ih

theorem lookupK_updK_other (k k2 : KeyT) (r : RResult) (h : k2 ≠ k) :
    ∀ acc : List (KeyT × RResult),
      lookupK k2 (updK k r acc) = lookupK k2 acc := by
  intro acc
  induction acc with
  | nil => simp [updK, lookupK, h]
  | cons p t ih =>
    rw [updK]
    by_cases he : k = p.1
    · rw [if_pos he]
      have hne : k2 ≠ p.1 := he ▸ h
      rw [lookupK, lookupK]
      simp only [if_neg hne]
    · rw [if_neg he]
      rw [lookupK, lookupK]
      by_cases hc : k2 = p.1
      · simp only [if_pos hc]
      · simp only [if_neg hc]
        exact ih

theorem updK_map_fst_of_found (k : KeyT) (r : RResult) :
    ∀ acc : List (KeyT × RResult), k ∈ acc.map (·.1) →
      (updK k r acc).map (·.1) = acc.map (·.1) := by
  intro acc
  induction acc with
  | nil => intro h; simp at h
  | cons p t ih =>
    intro h
    rw [updK]
    split
    · simp
    · rename_i he
      simp only [List.map_cons, List.mem_cons] at h
      rcases h with h | h
      · exact absurd h he
      · simp only [List.map_cons]
        rw [ih h]

theorem updK_mem (k : KeyT) (r : RResult) :
    ∀ (acc : List (KeyT × RResult)) (p : KeyT × RResult),
      p ∈ updK k r acc → p = (k, r) ∨ p ∈ acc := by
  intro acc
  induction acc with
  | nil => intro p hp; simp [updK] at hp; left; exact hp
  | cons p0 t ih =>
    intro p hp
    rw [updK] at hp
    split at hp
    · rename_i he
      rcases List.mem_cons.mp hp with h | h
      · left; rw [h, ← he]
      · right; exact List.mem_cons_of_mem _ h
    · rcases List.mem_cons.mp hp with h | h
      · right; rw [h]; exact List.mem_cons_self _ _
      · rcases ih p h with h2 | h2
        · left; exact h2
        · right; exact List.mem_cons_of_mem _ h2

theorem dedupFold_key_inv :
    ∀ (rs : List RResult) (acc : List (KeyT × RResult)),
      (∀ p ∈ acc, resultKey p.2 = p.1) →
      ∀ p ∈ dedupFold rs acc, resultKey p.2 = p.1 := by
  intro rs
  induction rs with
  | nil => intro acc h p hp; exact h p hp
  | cons r t ih =>
    intro acc h p hp
    rw [dedupFold] at hp
    split at hp
    · refine ih _ ?_ p hp
      intro p2 hp2
      rcases List.mem_append.mp hp2 with h2 | h2
      · exact h p2 h2
      · rw [List.mem_singleton] at h2
        rw [h2]
    · split at hp
      · refine ih _ ?_ p hp
        intro p2 hp2
        rcases updK_mem _ _ _ _ hp2 with h2 | h2
        · rw [h2]
        · exact h p2 h2
      · exact ih _ h p hp

theorem dedupFold_keys_nodup :
    ∀ (rs : List RResult) (acc : List (KeyT × RResult)),
      (acc.map (·.1)).Nodup → ((dedupFold rs acc).map (·.1)).Nodup := by
  intro rs
  induction rs with
  | nil => intro acc h; exact h
  | cons r t ih =>
    intro acc h
    rw [dedupFold]
    split
    · rename_i hlk
      refine ih _ ?_
      rw [List.map_append]
      rw [List.nodup_append]
      refine ⟨h, List.nodup_singleton _, ?_⟩
      intro a ha hb
      rw [List.map_singleton, List.mem_singleton] at hb
      rw [hb] at ha
      exact (lookupK_eq_none_iff _ acc).mp hlk ha
    · rename_i r2 hlk
      split
      · refine ih _ ?_
        rw [updK_map_fst_of_found]
        · exact h
        · by_contra hmem
          rw [← lookupK_eq_none_iff] at hmem
          rw [hmem] at hlk
          exact absurd hlk (by simp)
      · exact ih _ h

theorem dedupFold_lookup_mono :
    ∀ (rs : List RResult) (acc : List (KeyT × RResult)) (k : KeyT)
      (v : RResult), lookupK k acc = some v →
      ∃ v2, lookupK k (dedupFold rs acc) = some v2 ∧ v.score ≤ v2.score := by
  intro rs
  induction rs with
  | nil => intro acc k v h; exact ⟨v, h, le_refl _⟩
  | cons r t ih =>
    intro acc k v h
    rw [dedupFold]
    split
    · rename_i hlk
      exact ih _ k v (lookupK_append_left _ _ h)
    · rename_i r2 hlk
      split
      · rename_i hsc
        by_cases hk : k = resultKey r
        · rw [hk] at h
          rw [h] at hlk
          cases hlk
          obtain ⟨v2, h2, h3⟩ := ih _ (resultKey r) r (lookupK_updK_self _ _ _)
          rw [hk]
          exact ⟨v2, h2, le_trans (le_of_lt hsc) h3⟩
        · have hlk2 : lookupK k (updK (resultKey r) r acc) = some v := by
            rw [lookupK_updK_other (resultKey r) k r hk acc]
            exact h
          exact ih (updK (resultKey r) r acc) k v hlk2
      · exact ih _ k v h

theorem dedupFold_covers :
    ∀ (rs : List RResult) (acc : List (KeyT × RResult)) (r : RResult),
      r ∈ rs → ∃ v, lookupK (resultKey r) (dedupFold rs acc) = some v ∧
        r.score ≤ v.score := by
  intro rs
  induction rs with
  | nil => intro acc r h; simp at h
  | cons r0 t ih =>
    intro acc r h
    rcases List.mem_cons.mp h with h1 | h1
    · subst h1
      rw [dedupFold]
      split
      · rename_i hlk
        refine dedupFold_lookup_mono t _ _ r ?_
        rw [lookupK_append_right _ _ hlk]
        rw [lookupK, if_pos rfl]
      · rename_i r2 hlk
        split
        · exact dedupFold_lookup_mono t _ _ r (lookupK_updK_self _ _ _)
        · rename_i hsc
          obtain ⟨v2, h2, h3⟩ := dedupFold_lookup_mono t _ _ r2 hlk
          exact ⟨v2, h2, le_trans (not_lt.mp hsc) h3⟩
    · rw [dedupFold]
      split
      · exact ih _ r h1
      · split
        · exact ih _ r h1
        · exact ih _ r h1

theorem mem_lookupK :
    ∀ acc : List (KeyT × RResult), (acc.map (·.1)).Nodup →
      ∀ p ∈ acc, lookupK p.1 acc = some p.2 := by
  intro acc
  induction acc with
  | nil => intro _ p hp; simp at hp
  | cons p0 t ih =>
    intro hnd p hp
    rw [List.map_cons, List.nodup_cons] at hnd
    rcases List.mem_cons.mp hp with h | h
    · rw [h, lookupK, if_pos rfl]
    · rw [lookupK]
      split
      · rename_i he
        exfalso
        apply hnd.1
        rw [← he]
        exact List.mem_map.mpr ⟨p, h, rfl⟩
      · exact ih hnd.2 p h

theorem resultKey_leyAdjust (r : RResult) :
    resultKey (leyAdjust r) = resultKey r := by
  unfold leyAdjust
  split <;> rfl

/-! ## C3: deduplication by composite key -/

theorem hybridOut_shape (st : RState) (emb : List ℚ) (q : Str) (it : Intent)
    (out : List RResult) (h : hybridOut st emb q it = some out) :
    ∃ rs : List RResult,
      out = sortDescBy (·.score) (((dedupFold rs []).map (·.2)).map leyAdjust) := by
  simp only [hybridOut] at h
  split at h
  · exact absurd h (by simp)
  · split at h
    · exact absurd h (by simp)
    · exact ⟨_, (Option.some.inj h).symm⟩

theorem dedupVals_pairwise_ne (rs : List RResult) :
    List.Pairwise (fun a b => resultKey a ≠ resultKey b)
      ((dedupFold rs []).map (·.2)) := by
  have hkeys := dedupFold_keys_nodup rs [] (by simp)
  have hinv := dedupFold_key_inv rs [] (by intro p hp; simp at hp)
  have hmapeq : (dedupFold rs []).map (·.1) =
      ((dedupFold rs []).map (·.2)).map resultKey := by
    rw [List.map_map]
    apply List.map_congr_left
    intro p hp
    exact (hinv p hp).symm
  rw [hmapeq] at hkeys
  exact List.pairwise_map.mp hkeys

theorem dedup_keeps_best (rs : List RResult) (r1 r2 : RResult)
    (h1 : r1 ∈ rs) (h2 : r2 ∈ rs) (hk : resultKey r1 = resultKey r2)
    (hlt : r1.score < r2.score) : r1 ∉ (dedupFold rs []).map (·.2) := by
  intro hmem
  obtain ⟨p, hp, hpv⟩ := List.mem_map.mp hmem
  have hkey := dedupFold_key_inv rs [] (by intro p2 hp2; simp at hp2) p hp
  have hlk := mem_lookupK _ (dedupFold_keys_nodup rs [] (by simp)) p hp
  obtain ⟨v, hv, hvs⟩ := dedupFold_covers rs [] r2 h2
  rw [hpv] at hkey
  rw [← hk, hkey] at hv
  rw [hv] at hlk
  have hveq : v = r1 := (Option.some.inj hlk).trans hpv
  rw [hveq] at hvs
  exact absurd hlt (not_lt.mpr hvs)

theorem injectStep_pairwise (st : RState) (it : Intent) (out : List RResult)
    (h : List.Pairwise (fun a b => resultKey a ≠ resultKey b) out) :
    List.Pairwise (fun r1 r2 => resultKey r1 = resultKey r2 →
      r1.matchType = strL "forced_article_metadata" ∨
      r2.matchType = strL "forced_article_metadata")
      (injectStep st it out) := by
  have hout : List.Pairwise (fun r1 r2 => resultKey r1 = resultKey r2 →
      r1.matchType = strL "forced_article_metadata" ∨
      r2.matchType = strL "forced_article_metadata") out :=
    h.imp (fun hne hk => absurd hk hne)
  unfold injectStep
  split
  · split
    · split
      · exact hout
      · rw [List.pairwise_append]
        refine ⟨hout, ?_, ?_⟩
        · apply pairwiseOfMem
          intro a ha b hb _
          left
          have := (List.mem_filter.mp ha).1
          obtain ⟨e, -, he⟩ := List.mem_map.mp this
          rw [← he]
          rfl
        · intro a _ b hb _
          right
          have := (List.mem_filter.mp hb).1
          obtain ⟨e, -, he⟩ := List.mem_map.mp this
          rw [← he]
          rfl
    · exact hout
  · exact hout

theorem rankStep_subperm (it : Intent) (out2 : List RResult) :
    (rankStep it out2).Subperm out2 := by
  unfold rankStep
  split
  · exact List.Subperm.refl _
  · rw [List.subperm_ext_iff]
    intro x hx
    rw [List.count_append]
    have hfs : List.count x (forcedOf it out2) =
        List.count x (out2.filter
          (fun r => matchesArticleRequest r.rmeta it)) :=
      (sortDescBy_perm _ _).count_eq x
    by_cases hp : matchesArticleRequest x.rmeta it = true
    · have hrest : List.count x (out2.filter (fun r =>
          !((forcedOf it out2).map (·.chunkId)).contains r.chunkId)) = 0 := by
        rw [List.count_eq_zero]
        intro hc
        rw [List.mem_filter] at hc
        have hxf : x ∈ forcedOf it out2 :=
          sortDescBy_mem.mpr (List.mem_filter.mpr ⟨hc.1, hp⟩)
        have hid : x.chunkId ∈ (forcedOf it out2).map (·.chunkId) :=
          List.mem_map.mpr ⟨x, hxf, rfl⟩
        have hcon : ((forcedOf it out2).map (·.chunkId)).contains x.chunkId =
            true := List.elem_iff.mpr hid
        rw [Bool.not_eq_true'] at hc
        rw [hc.2] at hcon
        exact Bool.false_ne_true hcon
      rw [hrest, hfs, Nat.add_zero]
      exact (List.filter_sublist out2).count_le x
    · have hfs0 : List.count x (forcedOf it out2) = 0 := by
        rw [hfs, List.count_eq_zero]
        intro hc
        exact hp (List.mem_filter.mp hc).2
      rw [hfs0]
      simp only [Nat.zero_add]
      exact (List.filter_sublist out2).count_le x

theorem rankStep_order (it : Intent) (out2 : List RResult) :
    List.Pairwise (fun r1 r2 => matchesArticleRequest r2.rmeta it = true →
      matchesArticleRequest r1.rmeta it = true) (rankStep it out2) := by
  unfold rankStep
  split
  · rename_i hemp
    apply pairwiseOfMem
    intro a _ b hb hmatch
    exfalso
    exact (List.filter_eq_nil_iff.mp hemp b hb) hmatch
  · rw [List.pairwise_append]
    refine ⟨?_, ?_, ?_⟩
    · apply pairwiseOfMem
      intro a ha b _ _
      exact (List.mem_filter.mp (sortDescBy_mem.mp ha)).2
    · apply pairwiseOfMem
      intro a ha b hb hmatch
      exfalso
      rw [List.mem_filter] at hb
      have hxf : b ∈ forcedOf it out2 :=
        sortDescBy_mem.mpr (List.mem_filter.mpr ⟨hb.1, hmatch⟩)
      have hid : b.chunkId ∈ (forcedOf it out2).map (·.chunkId) :=
        List.mem_map.mpr ⟨b, hxf, rfl⟩
      have hcon : ((forcedOf it out2).map (·.chunkId)).contains b.chunkId =
          true := List.elem_iff.mpr hid
      have := hb.2
      rw [Bool.not_eq_true'] at this
      rw [this] at hcon
      exact Bool.false_ne_true hcon
    · intro a ha b _ _
      exact (List.mem_filter.mp (sortDescBy_mem.mp ha)).2

/-- C3 (amended): among the merged hybrid candidates, of two results sharing
the composite key `(siglas, tipo, numero, articulo, page_start, page_end)`
only the higher-scoring one survives deduplication; and in the final output
of a run where the exact-match short-circuit did not fire, two distinct
positions can carry the same composite key only when at least one of them is
a `forced_article_metadata` result injected by the stage-7 fallback, which
bypasses deduplication. -/
theorem c3_dedup_by_key :
    (∀ (rs : List RResult) (r1 r2 : RResult), r1 ∈ rs → r2 ∈ rs →
      resultKey r1 = resultKey r2 → r1.score < r2.score →
      r1 ∉ (dedupFold rs []).map (·.2)) ∧
    (∀ (st : RState) (emb : List ℚ) (q : Str) (res : List RResult),
      stage0 st (parseQuery st.aliasIndex q) = none →
      retrieve st emb q = some res →
      List.Pairwise (fun r1 r2 => resultKey r1 = resultKey r2 →
        r1.matchType = strL "forced_article_metadata" ∨
        r2.matchType = strL "forced_article_metadata") res) := by
  constructor
  · exact dedup_keeps_best
  · intro st emb q res hs0 h
    simp only [retrieve, hs0] at h
    cases hh : hybridOut st emb q (parseQuery st.aliasIndex q) with
    | none => rw [hh] at h; exact absurd h (by simp)
    | some out =>
      rw [hh] at h
      cases h
      obtain ⟨rs, hout⟩ := hybridOut_shape st emb q _ out hh
      have hvals := dedupVals_pairwise_ne rs
      have hmap : List.Pairwise (fun a b => resultKey a ≠ resultKey b)
          (((dedupFold rs []).map (·.2)).map leyAdjust) := by
        rw [List.pairwise_map]
        exact hvals.imp (fun hne => by
          rw [resultKey_leyAdjust, resultKey_leyAdjust]
          exact hne)
      have hkeys : List.Pairwise (fun a b => resultKey a ≠ resultKey b) out := by
        rw [hout]
        exact ((sortDescBy_perm (·.score) _).pairwise_iff
          (fun hne h2 => hne h2.symm)).mpr hmap
      have hsym : ∀ {x y : RResult},
          (resultKey x = resultKey y →
            x.matchType = strL "forced_article_metadata" ∨
            y.matchType = strL "forced_article_metadata") →
          (resultKey y = resultKey x →
            y.matchType = strL "forced_article_metadata" ∨
            x.matchType = strL "forced_article_metadata") :=
        fun hr hk => (hr hk.symm).symm
      apply List.Pairwise.sublist (List.take_sublist _ _)
      by_cases hart : optTruthy (parseQuery st.aliasIndex q).articuloNro = true
      · rw [if_pos hart]
        unfold forcedStep
        exact pairwise_of_subperm hsym (rankStep_subperm _ _)
          (injectStep_pairwise st _ out hkeys)
      · rw [if_neg hart]
        exact hkeys.imp (fun hne hk => absurd hk hne)

/-- C3 counterexample: with the short-circuit not firing, the forced-article
injection adds two distinct chunks that share the full composite key, so they
both appear in the final output. -/
theorem c3_counterexample :
    stage0 stAB (parseQuery stAB.aliasIndex (strL "articulo 13")) = none ∧
    retrieve stAB [] (strL "articulo 13") =
      some [mkForced entryA, mkForced entryB] ∧
    resultKey (mkForced entryA) = resultKey (mkForced entryB) ∧
    mkForced entryA ≠ mkForced entryB := by
  refine ⟨by with_unfolding_all rfl, by with_unfolding_all rfl, ?_, ?_⟩
  · with_unfolding_all decide
  · with_unfolding_all decide

/-- Witness for C3: the lower-scoring of two same-key merge candidates is
dropped by dedup, and the pairwise guarantee holds on a concrete run whose
only key collision is between injected results. -/
theorem c3_dedup_by_key_witness :
    rLow ∉ (dedupFold [rLow, rHigh] []).map (·.2) ∧
    List.Pairwise (fun r1 r2 => resultKey r1 = resultKey r2 →
      r1.matchType = strL "forced_article_metadata" ∨
      r2.matchType = strL "forced_article_metadata")
      [mkForced entryA, mkForced entryB] :=
  ⟨c3_dedup_by_key.1 [rLow, rHigh] rLow rHigh (by simp) (by simp)
      (by with_unfolding_all decide) (by with_unfolding_all decide),
    c3_dedup_by_key.2 stAB [] (strL "articulo 13")
      [mkForced entryA, mkForced entryB] (by with_unfolding_all rfl)
      (by with_unfolding_all rfl)⟩

/-! ## C2: forced ranking of article-matching results -/

theorem optTruthy_some_of_ne {a : Str} (h : a ≠ []) :
    optTruthy (some a) = true := by
  unfold optTruthy
  simp [h]

theorem head?_take {α : Type} (l : List α) (k : Nat) (hk : 1 ≤ k) :
    (l.take k).head? = l.head? := by
  cases l with
  | nil => simp
  | cons x t =>
    cases k with
    | zero => omega
    | succ k2 => simp [List.take_succ_cons]

theorem matches_false_of_no_art {m : Meta} {it : Intent}
    (h : optTruthy it.articuloNro = false) :
    matchesArticleRequest m it = false := by
  unfold matchesArticleRequest
  rw [h]
  rfl

/-- C2 counterexample: the corpus holds two chunks with
`articulo_nro = "13"` and `siglas = "lgs"`; for the chunk stored second, the
claim "that chunk is the first element" fails — the other matching chunk is
returned first. -/
theorem c2_counterexample :
    entryX ∈ stW.collection ∧
    entryX.cmeta.articuloNro = strL "13" ∧
    entryX.cmeta.siglas = strL "lgs" ∧
    retrieve stW [] (strL "articulo 13 lgs") =
      some [mkExact entryY, mkExact entryX] ∧
    (mkExact entryY).chunkId ≠ entryX.cid := by
  refine ⟨?_, by with_unfolding_all rfl, by with_unfolding_all rfl,
    by with_unfolding_all rfl, by with_unfolding_all decide⟩
  show entryX ∈ ([entryY, entryX] : List CEntry)
  exact List.mem_cons_of_mem _ (List.mem_singleton.mpr rfl)

/-- C2 (amended): when a chunk whose metadata equals the requested article
number and acronym exists in the metadata store, `retrieve` places some chunk
matching the full request first (with several matching chunks, not
necessarily a given one); and whenever the exact-match short-circuit does not
fire, every result matching the requested article and all present anchors is
placed before every non-matching result. -/
theorem c2_forced_ranking :
    (∀ (st : RState) (emb : List ℚ) (q : Str) (a s : Str) (X : CEntry),
      parseQuery st.aliasIndex q = ⟨some a, none, none, some s⟩ →
      stripChars a = a → a ≠ [] → stripChars s = s → s ≠ [] →
      X ∈ st.collection → X.cmeta.articuloNro = a → X.cmeta.siglas = s →
      1 ≤ st.topkFinal →
      ∃ res, retrieve st emb q = some res ∧ res ≠ [] ∧
        ∀ r0, res.head? = some r0 →
          matchesArticleRequest r0.rmeta (parseQuery st.aliasIndex q) =
            true) ∧
    (∀ (st : RState) (emb : List ℚ) (q : Str) (res : List RResult),
      stage0 st (parseQuery st.aliasIndex q) = none →
      retrieve st emb q = some res →
      List.Pairwise (fun r1 r2 =>
        matchesArticleRequest r2.rmeta (parseQuery st.aliasIndex q) = true →
        matchesArticleRequest r1.rmeta (parseQuery st.aliasIndex q) = true)
        res) := by
  constructor
  · intro st emb q a s X hint ha ha2 hs hs2 hX hXa hXs hK
    have hwe : whereExact (parseQuery st.aliasIndex q) =
        [(MField.artNro, a), (MField.siglas, s)] := by
      rw [hint]
      unfold whereExact
      simp [optTruthy, ha2, hs2]
    have hcw : chromaWhereL (whereExact (parseQuery st.aliasIndex q)) =
        some [(MField.artNro, a), (MField.siglas, s)] := by
      rw [hwe]
      unfold chromaWhereL
      simp [ha, hs, ha2, hs2]
    have hXin : X ∈ collGetWhere st.collection
        [(MField.artNro, a), (MField.siglas, s)] := by
      rw [collGetWhere, List.mem_filter]
      refine ⟨hX, ?_⟩
      simp [metaGet, hXa, hXs]
    have hne : collGetWhere st.collection
        [(MField.artNro, a), (MField.siglas, s)] ≠ [] :=
      List.ne_nil_of_mem hXin
    have hs0 : stage0 st (parseQuery st.aliasIndex q) =
        some (((collGetWhere st.collection
          [(MField.artNro, a), (MField.siglas, s)]).map mkExact).take
            st.topkFinal) := by
      unfold stage0
      rw [hint]
      rw [show (⟨some a, none, none, some s⟩ : Intent).articuloNro = some a
        from rfl]
      rw [optTruthy_some_of_ne ha2]
      rw [show (⟨some a, none, none, some s⟩ : Intent).siglas = some s
        from rfl]
      rw [optTruthy_some_of_ne hs2]
      rw [← hint, hcw]
      simp [hne]
    refine ⟨((collGetWhere st.collection
        [(MField.artNro, a), (MField.siglas, s)]).map mkExact).take
          st.topkFinal, by simp only [retrieve, hs0], ?_, ?_⟩
    · have hpos : 0 < (((collGetWhere st.collection
          [(MField.artNro, a), (MField.siglas, s)]).map mkExact).take
            st.topkFinal).length := by
        rw [List.length_take, List.length_map]
        have := List.length_pos.mpr hne
        omega
      exact List.ne_nil_of_length_pos hpos
    · intro r0 hr0
      rw [head?_take _ _ hK, List.head?_map] at hr0
      cases hex : collGetWhere st.collection
          [(MField.artNro, a), (MField.siglas, s)] with
      | nil => exact absurd hex hne
      | cons e0 rest =>
        rw [hex] at hr0
        simp only [List.head?_cons, Option.map_some'] at hr0
        have he0 : e0 ∈ collGetWhere st.collection
            [(MField.artNro, a), (MField.siglas, s)] := by
          rw [hex]; exact List.mem_cons_self _ _
        rw [collGetWhere, List.mem_filter] at he0
        have hall := he0.2
        simp only [List.all_cons, List.all_nil, Bool.and_true,
          Bool.and_eq_true, beq_iff_eq] at hall
        obtain ⟨hea, hes⟩ := hall
        have hr0e : r0 = mkExact e0 := (Option.some.inj hr0).symm
        rw [hr0e, hint]
        unfold matchesArticleRequest
        rw [show (mkExact e0).rmeta = e0.cmeta from rfl]
        rw [show (⟨some a, none, none, some s⟩ : Intent).articuloNro =
          some a from rfl]
        rw [optTruthy_some_of_ne ha2]
        simp only [Bool.not_true, Bool.false_eq_true, if_false]
        rw [show metaGet e0.cmeta MField.artNro = e0.cmeta.articuloNro
          from rfl] at hea
        rw [hea]
        have hes2 : e0.cmeta.siglas = s := hes
        simp [optTruthy, metaGet, hes2, hs2]
  · intro st emb q res hs0 h
    simp only [retrieve, hs0] at h
    cases hh : hybridOut st emb q (parseQuery st.aliasIndex q) with
    | none => rw [hh] at h; exact absurd h (by simp)
    | some out =>
      rw [hh] at h
      cases h
      apply List.Pairwise.sublist (List.take_sublist _ _)
      by_cases hart :
          optTruthy (parseQuery st.aliasIndex q).articuloNro = true
      · rw [if_pos hart]
        unfold forcedStep
        exact rankStep_order _ _
      · rw [if_neg hart]
        apply pairwiseOfMem
        intro r1 _ r2 _ hmatch
        rw [matches_false_of_no_art (Bool.not_eq_true _ |>.mp hart)] at hmatch
        exact absurd hmatch (by simp)

/-- Witness for C2: the single matching chunk is returned first on a concrete
one-chunk corpus, and the ordering guarantee holds on a concrete
injection-path run. -/
theorem c2_forced_ranking_witness :
    (∃ res, retrieve stU [] (strL "articulo 13 lgs") = some res ∧
      res ≠ [] ∧
      ∀ r0, res.head? = some r0 →
        matchesArticleRequest r0.rmeta
          (parseQuery stU.aliasIndex (strL "articulo 13 lgs")) = true) ∧
    List.Pairwise (fun r1 r2 =>
      matchesArticleRequest r2.rmeta
        (parseQuery stAB.aliasIndex (strL "articulo 13")) = true →
      matchesArticleRequest r1.rmeta
        (parseQuery stAB.aliasIndex (strL "articulo 13")) = true)
      [mkForced entryA, mkForced entryB] :=
  ⟨c2_forced_ranking.1 stU [] (strL "articulo 13 lgs") (strL "13")
      (strL "lgs") entryX (by with_unfolding_all rfl)
      (by with_unfolding_all rfl) (by with_unfolding_all decide)
      (by with_unfolding_all rfl) (by with_unfolding_all decide)
      (by show entryX ∈ ([entryX] : List CEntry)
          exact List.mem_singleton.mpr rfl)
      (by with_unfolding_all rfl)
      (by with_unfolding_all rfl) (by with_unfolding_all decide),
    c2_forced_ranking.2 stAB [] (strL "articulo 13")
      [mkForced entryA, mkForced entryB] (by with_unfolding_all rfl)
      (by with_unfolding_all rfl)⟩

end LegalKA
